import Mathlib

/-!
Verification development for `tools/javadoc2mkdocs.py`.

The Python script parses Javadoc comment blocks out of Java source text,
converts the Javadoc/HTML inline markup to Markdown, extracts documented
members, and renders MkDocs pages.  This file gives a shallow embedding of
the string-processing core of that script over `List Char` (Python `str`
values are modelled as their lists of characters), together with theorems
about the embedded functions.

Conventions:
* Python regular-expression substitutions are embedded as left-to-right
  scanners (`subScan`) with an explicit per-position matcher that mirrors
  the regex's leftmost / greedy / lazy semantics; each matcher documents
  the regex it embeds and the reasoning used to resolve backtracking.
* Recursive scanners take an explicit fuel argument; every caller passes
  `length + 1` fuel, which is always sufficient because every match
  consumes at least one character of input.
* Character classes (`\s`, `\w`, `str.lower`, …) are embedded for the
  character ranges Python uses; `\w` and case folding are modelled on
  ASCII, which covers every character class decision the source makes on
  the inputs treated here.
-/

set_option maxRecDepth 6000

namespace JD

/-- Python whitespace (`str.isspace` / regex `\s` for `str` patterns):
`\t \n \v \f \r`, space, `\x1c`–`\x1f`, `\x85`, NBSP and the Unicode
space separators. -/
def pyIsSpace (c : Char) : Bool :=
  (9 ≤ c.toNat && c.toNat ≤ 13) || c.toNat == 32 ||
  (28 ≤ c.toNat && c.toNat ≤ 31) || c.toNat == 133 || c.toNat == 160 ||
  c.toNat == 5760 || (8192 ≤ c.toNat && c.toNat ≤ 8202) ||
  c.toNat == 8232 || c.toNat == 8233 || c.toNat == 8239 ||
  c.toNat == 8287 || c.toNat == 12288

/-- Regex `\w` (ASCII part): letters, digits and underscore. -/
def isWordChar (c : Char) : Bool :=
  c.isAlphanum || c == '_'

/-- ASCII lower-casing, as used by `str.lower()` on the tag names that
occur here (Python folds full Unicode; the script only compares the
result against ASCII keywords). -/
def asciiLower (c : Char) : Char :=
  if 65 ≤ c.toNat && c.toNat ≤ 90 then Char.ofNat (c.toNat + 32) else c

/-- `str.lower()` on a whole string. -/
def lowerL (s : List Char) : List Char :=
  s.map asciiLower

/-- Case-insensitive character equality (regex `re.IGNORECASE`). -/
def ciEq (a b : Char) : Bool :=
  asciiLower a == asciiLower b

/-- Python `str.strip()`: drop leading and trailing whitespace. -/
def pyStrip (s : List Char) : List Char :=
  (s.dropWhile pyIsSpace).rdropWhile pyIsSpace

/-- Python `str.split(None, 1)`: at most one split on runs of whitespace.
Leading whitespace is skipped; if nothing follows the first token the
result has a single element; an all-whitespace string gives `[]`. -/
def pySplitWsOnce (s : List Char) : List (List Char) :=
  let s1 := s.dropWhile pyIsSpace
  if s1 = [] then []
  else
    let tok := s1.takeWhile (fun c => !pyIsSpace c)
    let rest := (s1.dropWhile (fun c => !pyIsSpace c)).dropWhile pyIsSpace
    if rest = [] then [tok] else [tok, rest]

/-- Python `str.split()` (no maxsplit): whitespace-run tokenisation. -/
def pySplitWsAll : Nat → List Char → List (List Char)
  | 0, _ => []
  | fuel + 1, s =>
    let s1 := s.dropWhile pyIsSpace
    match s1 with
    | [] => []
    | _ :: _ =>
      s1.takeWhile (fun c => !pyIsSpace c) ::
        pySplitWsAll fuel (s1.dropWhile (fun c => !pyIsSpace c))

/-- Python `str.splitlines()` line-boundary characters, besides the
`\r\n` pair handled separately. -/
def isLineBreak (c : Char) : Bool :=
  c == '\n' || c == '\r' || c.toNat == 11 || c.toNat == 12 ||
  c.toNat == 28 || c.toNat == 29 || c.toNat == 30 || c.toNat == 133 ||
  c.toNat == 8232 || c.toNat == 8233

/-- Helper for `pySplitlines`: `cur` is the line accumulated so far (in
reverse order it is not; we append).  Mirrors `str.splitlines()`:
no trailing empty line for a trailing terminator, `\r\n` is one break. -/
def pySplitlinesGo : Nat → List Char → List Char → List (List Char)
  | 0, cur, s => [cur ++ s]
  | fuel + 1, cur, s =>
    match s with
    | [] => if cur = [] then [] else [cur]
    | '\r' :: '\n' :: rest => cur :: pySplitlinesGo fuel [] rest
    | c :: rest =>
      if isLineBreak c then cur :: pySplitlinesGo fuel [] rest
      else pySplitlinesGo fuel (cur ++ [c]) rest

/-- Python `str.splitlines()`. -/
def pySplitlines (s : List Char) : List (List Char) :=
  match s with
  | [] => []
  | _ => pySplitlinesGo (s.length + 1) [] s

/-- `sep.join`-style intercalation with a single character. -/
def joinNL : List (List Char) → List Char
  | [] => []
  | [l] => l
  | l :: ls => l ++ '\n' :: joinNL ls

/-- First occurrence of the literal pattern `pat` in `s`: returns the text
before the occurrence and the text after it. -/
def splitOnFirst (pat : List Char) : List Char → Option (List Char × List Char)
  | [] => if pat = [] then some ([], []) else none
  | c :: rest =>
    if pat.isPrefixOf (c :: rest) then some ([], (c :: rest).drop pat.length)
    else (splitOnFirst pat rest).map (fun p => (c :: p.1, p.2))

/-- Case-insensitive `isPrefixOf` (for `re.IGNORECASE` literals). -/
def ciIsPrefixOf : List Char → List Char → Bool
  | [], _ => true
  | _ :: _, [] => false
  | p :: ps, c :: cs => ciEq p c && ciIsPrefixOf ps cs

/-- Case-insensitive `splitOnFirst`. -/
def splitOnFirstCI (pat : List Char) : List Char → Option (List Char × List Char)
  | [] => if pat = [] then some ([], []) else none
  | c :: rest =>
    if ciIsPrefixOf pat (c :: rest) then some ([], (c :: rest).drop pat.length)
    else (splitOnFirstCI pat rest).map (fun p => (c :: p.1, p.2))

/-- Generic left-to-right non-overlapping substitution scanner, the shape
shared by every `re.sub` in the script: `tm s` returns
`some (replacement, rest-after-match)` when a match starts at the head of
`s`.  Every matcher used here consumes at least one character, so fuel
`length + 1` never runs out. -/
def subScan (tm : List Char → Option (List Char × List Char)) :
    Nat → List Char → List Char
  | 0, s => s
  | fuel + 1, s =>
    match s with
    | [] => []
    | c :: rest =>
      match tm s with
      | some (rep, after) => rep ++ subScan tm fuel after
      | none => c :: subScan tm fuel rest

/-- Run a substitution scanner with always-sufficient fuel. -/
def runSub (tm : List Char → Option (List Char × List Char))
    (s : List Char) : List Char :=
  subScan tm (s.length + 1) s

/-! ### Javadoc comment block parser

Embedding of `_strip_javadoc_stars`, `_parse_javadoc_block` and the data
class `Tag` (source lines 32–36, 77–84, 161–198). -/

/-- `Tag` dataclass: one Javadoc block tag. -/
structure Tag where
  name : List Char
  arg : List Char
  text : List Char
deriving DecidableEq

/-- Tags that take a leading argument token (`_ARG_TAGS`, line 70). -/
def ARG_TAGS : List (List Char) :=
  ["param".data, "throws".data, "exception".data, "see".data,
   "uses".data, "provides".data]

/-- Matcher for `_LEADING_STAR_RE = re.compile(r"^\s*\*\s?", re.MULTILINE)`
used via `.sub("", raw)`.  A match can only start at a `^` position (the
string start or just after a `\n`).  `\s*` greedily eats whitespace (it
may cross line breaks); since every shorter candidate ends on a
whitespace character and `*` is not whitespace, the attempt succeeds
exactly when the first non-whitespace character after the position is
`*`; `\s?` then greedily takes one following whitespace character if
present.  `atStart` records whether the current position is a `^`
position; after consuming a match it holds exactly when the last
consumed character was `\n`. -/
def stripStarsGo : Nat → Bool → List Char → List Char
  | 0, _, s => s
  | fuel + 1, atStart, s =>
    match s with
    | [] => []
    | c :: rest =>
      if atStart then
        match s.dropWhile pyIsSpace with
        | '*' :: afterStar =>
          match afterStar with
          | d :: rest2 =>
            if pyIsSpace d then stripStarsGo fuel (d == '\n') rest2
            else stripStarsGo fuel false afterStar
          | [] => []
        | _ =>
          -- no match at this line start; emit one character and move on
          c :: stripStarsGo fuel (c == '\n') rest
      else c :: stripStarsGo fuel (c == '\n') rest

/-- `_LEADING_STAR_RE.sub("", s)`. -/
def stripLeadingStars (s : List Char) : List Char :=
  stripStarsGo (s.length + 1) true s

/-- `_strip_javadoc_stars` (lines 77–84): remove the `/** … */` frame and
per-line leading `*` markers. -/
def strip_javadoc_stars (raw : List Char) : List Char :=
  let r1 := pyStrip raw
  let r2 := if "/**".data.isPrefixOf r1 then r1.drop 3 else r1
  let r3 := if "*/".data.isSuffixOf r2 then r2.take (r2.length - 2) else r2
  pyStrip (stripLeadingStars r3)

/-- `re.split(r"\n\s*@", body)` (line 169).  A separator starts at a `\n`
whose next non-whitespace character is `@` (greedy `\s*` with
backtracking degenerates to exactly this, because `@` is not
whitespace); the separator consumes everything through that `@`.  `cur`
accumulates the chunk before the next separator. -/
def splitTagBoundariesGo : Nat → List Char → List Char → List (List Char)
  | 0, cur, s => [cur ++ s]
  | fuel + 1, cur, s =>
    match s with
    | [] => [cur]
    | '\n' :: rest =>
      match rest.dropWhile pyIsSpace with
      | '@' :: afterAt => cur :: splitTagBoundariesGo fuel [] afterAt
      | _ => splitTagBoundariesGo fuel (cur ++ ['\n']) rest
    | c :: rest => splitTagBoundariesGo fuel (cur ++ [c]) rest

/-- `re.split(r"\n\s*@", body)`. -/
def splitTagBoundaries (s : List Char) : List (List Char) :=
  splitTagBoundariesGo (s.length + 1) [] s

/-! Per-chunk helpers for the loop body of `_parse_javadoc_block`
(lines 173–196).  Each helper totalises one intermediate Python value
(with `[]` as the placeholder on the two paths where CPython raises an
`IndexError`; `parseChunk` turns those paths into `none`). -/

/-- `lines = chunk.splitlines()`. -/
def chunkLines (chunk : List Char) : List (List Char) :=
  pySplitlines chunk

/-- `first = lines[0].strip()` (placeholder `[]` when `lines` is empty —
CPython raises `IndexError` there). -/
def chunkFirst (chunk : List Char) : List Char :=
  pyStrip ((chunkLines chunk).headD [])

/-- `rest = "\n".join(lines[1:]).strip()`. -/
def chunkRest (chunk : List Char) : List Char :=
  pyStrip (joinNL (chunkLines chunk).tail)

/-- `parts = first.split(None, 1)`. -/
def chunkParts (chunk : List Char) : List (List Char) :=
  pySplitWsOnce (chunkFirst chunk)

/-- `tag_name = parts[0].lower()` (placeholder `[]` when `parts` is empty —
CPython raises `IndexError` there). -/
def chunkName (chunk : List Char) : List Char :=
  lowerL ((chunkParts chunk).headD [])

/-- `remainder = parts[1] if len(parts) > 1 else ""`. -/
def chunkRemainder0 (chunk : List Char) : List Char :=
  match chunkParts chunk with
  | _ :: r :: _ => r
  | _ => []

/-- `remainder = (remainder + " " + rest).strip()` when `rest` is
nonempty, otherwise `parts[1] if len(parts) > 1 else ""`. -/
def chunkRemainder (chunk : List Char) : List Char :=
  if chunkRest chunk ≠ [] then
    pyStrip (chunkRemainder0 chunk ++ ' ' :: chunkRest chunk)
  else chunkRemainder0 chunk

/-- `arg`: for argument-taking tags the first whitespace token of the
remainder (`""` when there is none); otherwise `""`. -/
def chunkArg (chunk : List Char) : List Char :=
  if chunkName chunk ∈ ARG_TAGS then
    (pySplitWsOnce (chunkRemainder chunk)).headD []
  else []

/-- `desc` before the final `.strip()`: for argument-taking tags the text
after the argument token; otherwise the whole remainder. -/
def chunkDesc (chunk : List Char) : List Char :=
  if chunkName chunk ∈ ARG_TAGS then
    match pySplitWsOnce (chunkRemainder chunk) with
    | _ :: d :: _ => d
    | _ => []
  else chunkRemainder chunk

/-- The `Tag` built for a chunk (when CPython does not raise). -/
def chunkTag (chunk : List Char) : Tag :=
  ⟨chunkName chunk, chunkArg chunk, pyStrip (chunkDesc chunk)⟩

/-- One iteration of the tag loop of `_parse_javadoc_block`
(lines 173–196).  `none` models the `IndexError` CPython raises on
`lines[0]` (empty chunk) or `parts[0]` (whitespace-only first line). -/
def parseChunk (chunk : List Char) : Option Tag :=
  if chunkLines chunk = [] then none
  else if chunkParts chunk = [] then none
  else some (chunkTag chunk)

/-! ### Inline markup converter

Embedding of `_inline_tags_to_md`, `_html_to_md` and
`_convert_description` (source lines 87–158).  Each `re.sub` becomes a
`runSub` pass with a matcher named after the construct it rewrites. -/

/-- Matcher for `re.sub(r"<pre>\{@code\s*(.*?)\s*\}</pre>", …)`
(lines 143–147, `re.DOTALL`).  The lazy group ends at the first
`}</pre>` occurrence; the surrounding greedy `\s*` pair plus the
`m.group(1).strip()` in the replacement mean the emitted content is the
text between `{@code` and that `}</pre>`, whitespace-stripped. -/
def preCodeTry : List Char → Option (List Char × List Char)
  | '<' :: t =>
    if "pre>\x7b@code".data.isPrefixOf t then
      match splitOnFirst "\x7d</pre>".data (t.drop 10) with
      | some (between, after) =>
        some ("\n```java\n".data ++ pyStrip between ++ "\n```\n".data, after)
      | none => none
    else none
  | _ => none

/-- Matcher for `re.sub(r"<pre>(.*?)</pre>", …)` (lines 149–153,
`re.DOTALL`): lazy group up to the first `</pre>`. -/
def prePlainTry : List Char → Option (List Char × List Char)
  | '<' :: t =>
    if "pre>".data.isPrefixOf t then
      match splitOnFirst "</pre>".data (t.drop 4) with
      | some (between, after) =>
        some ("\n```\n".data ++ pyStrip between ++ "\n```\n".data, after)
      | none => none
    else none
  | _ => none

/-- The `replace` callback of `_inline_tags_to_md` (lines 89–103),
applied to the captured tag name and the stripped content. -/
def inlineTagRender (tag content : List Char) : List Char :=
  if tag = "code".data then '`' :: content ++ ['`']
  else if tag = "link".data ∨ tag = "linkplain".data then
    -- content.replace("#", ".").split(" ", 1); display = label[1] or ref
    let c2 := content.map fun c => if c = '#' then '.' else c
    match splitOnFirst [' '] c2 with
    | some (_, disp) => '`' :: disp ++ ['`']
    | none => '`' :: c2 ++ ['`']
  else if tag = "literal".data then content
  else if tag = "value".data then '`' :: content ++ ['`']
  else content

/-- Matcher for `_INLINE_TAG_RE = re.compile(r"\{@(\w+)\s+([^}]*)\}")`
(line 72).  `\w+` takes the maximal word run (it cannot trade characters
with `\s+`, the classes are disjoint), `\s+` needs at least one
whitespace character, and `[^}]*` followed by `\}` ends at the first
`}`. -/
def inlineTagTry : List Char → Option (List Char × List Char)
  | '\x7b' :: '@' :: t =>
    let tag := t.takeWhile isWordChar
    if tag = [] then none
    else
      let r2 := t.dropWhile isWordChar
      if r2.takeWhile pyIsSpace = [] then none
      else
        let r3 := r2.dropWhile pyIsSpace
        let content := r3.takeWhile (· ≠ '\x7d')
        match r3.dropWhile (· ≠ '\x7d') with
        | '\x7d' :: after => some (inlineTagRender tag (pyStrip content), after)
        | _ => none
  | _ => none

/-- Matcher for `re.sub(rf"<h{i}[^>]*>(.*?)</h{i}>", …)` (line 115,
`re.DOTALL | re.IGNORECASE`): the lazy group runs to the first
case-insensitive `</hi>`; the replacement is `\n{'#'*(i+1)} \1\n` with
the capture inserted verbatim. -/
def headingTry (i : Nat) : List Char → Option (List Char × List Char)
  | '<' :: t =>
    if ciIsPrefixOf ['h', Char.ofNat (48 + i)] t then
      match (t.drop 2).dropWhile (· ≠ '>') with
      | '>' :: t3 =>
        match splitOnFirstCI ("</h".data ++ [Char.ofNat (48 + i), '>']) t3 with
        | some (content, after) =>
          some ('\n' :: List.replicate (i + 1) '#' ++ ' ' :: content ++ ['\n'], after)
        | none => none
      | _ => none
    else none
  | _ => none

/-- Matcher for `re.sub(r"<ul[^>]*>|</ul>|<ol[^>]*>|</ol>", "", …)`
(line 117, `re.IGNORECASE`).  The four alternatives have pairwise
distinct two-character starts, so testing them in order is equivalent. -/
def ulolTry : List Char → Option (List Char × List Char)
  | '<' :: t =>
    if ciIsPrefixOf "ul".data t || ciIsPrefixOf "ol".data t then
      match (t.drop 2).dropWhile (· ≠ '>') with
      | '>' :: t3 => some ([], t3)
      | _ => none
    else if ciIsPrefixOf "/ul>".data t || ciIsPrefixOf "/ol>".data t then
      some ([], t.drop 4)
    else none
  | _ => none

/-- Lookahead scan for the `<li>` rewrite: the lazy capture of
`<li[^>]*>(.*?)(?=<li|</[uo]l>|$)` stops at the first position that
starts `<li`, `</ul>` or `</ol>` (case-insensitively) or satisfies `$`
(end of string, or just before a single final newline — Python `$`
without `re.MULTILINE`).  Returns the capture and the remaining text
(the lookahead consumes nothing). -/
def liEndScan : Nat → List Char → List Char × List Char
  | 0, s => (s, [])
  | fuel + 1, s =>
    match s with
    | [] => ([], [])
    | ['\n'] => ([], ['\n'])
    | c :: rest =>
      if ciIsPrefixOf "<li".data s || ciIsPrefixOf "</ul>".data s ||
          ciIsPrefixOf "</ol>".data s then ([], s)
      else
        let p := liEndScan fuel rest
        (c :: p.1, p.2)

/-- Matcher for `re.sub(r"<li[^>]*>(.*?)(?=<li|</[uo]l>|$)",
lambda m: f"\n- {m.group(1).strip()}", …)` (line 118,
`re.DOTALL | re.IGNORECASE`). -/
def liTry : List Char → Option (List Char × List Char)
  | '<' :: t =>
    if ciIsPrefixOf "li".data t then
      match (t.drop 2).dropWhile (· ≠ '>') with
      | '>' :: t3 =>
        let p := liEndScan (t3.length + 1) t3
        some ('\n' :: '-' :: ' ' :: pyStrip p.1, p.2)
      | _ => none
    else none
  | _ => none

/-- Matcher for `re.sub(r"</li>", "", …)` (line 119, `re.IGNORECASE`). -/
def closeLiTry : List Char → Option (List Char × List Char)
  | '<' :: t => if ciIsPrefixOf "/li>".data t then some ([], t.drop 4) else none
  | _ => none

/-- Matcher for the paired-tag rewrites `<b>…</b>`, `<strong>…</strong>`,
`<i>…</i>`, `<em>…</em>`, `<code>…</code>`, `<tt>…</tt>`
(lines 121–126, `re.DOTALL | re.IGNORECASE`): literal opening tag, lazy
group up to the first case-insensitive closing tag, capture inserted
verbatim between `wl`/`wr`. -/
def pairTry (openRest close wl wr : List Char) :
    List Char → Option (List Char × List Char)
  | '<' :: t =>
    if ciIsPrefixOf openRest t then
      match splitOnFirstCI close (t.drop openRest.length) with
      | some (content, after) => some (wl ++ content ++ wr, after)
      | none => none
    else none
  | _ => none

/-- Matcher for `re.sub(r"<p\s*/?>", "\n\n", …)` (line 128,
`re.IGNORECASE`). -/
def pTry : List Char → Option (List Char × List Char)
  | '<' :: t =>
    match t with
    | c :: t2 =>
      if ciEq 'p' c then
        match t2.dropWhile pyIsSpace with
        | '/' :: '>' :: after => some ("\n\n".data, after)
        | '>' :: after => some ("\n\n".data, after)
        | _ => none
      else none
    | [] => none
  | _ => none

/-- Matcher for `re.sub(r"</p>", "", …)` (line 129, `re.IGNORECASE`). -/
def closePTry : List Char → Option (List Char × List Char)
  | '<' :: t => if ciIsPrefixOf "/p>".data t then some ([], t.drop 3) else none
  | _ => none

/-- Matcher for `re.sub(r"<br\s*/?>", "\n", …)` (line 130,
`re.IGNORECASE`). -/
def brTry : List Char → Option (List Char × List Char)
  | '<' :: t =>
    if ciIsPrefixOf "br".data t then
      match (t.drop 2).dropWhile pyIsSpace with
      | '/' :: '>' :: after => some (['\n'], after)
      | '>' :: after => some (['\n'], after)
      | _ => none
    else none
  | _ => none

/-- Matcher for `_HTML_TAG_RE = re.compile(r"<[^>]+>")` used with
`.sub("", …)` (lines 73, 132). -/
def genericTagTry : List Char → Option (List Char × List Char)
  | '<' :: t =>
    if t.takeWhile (· ≠ '>') = [] then none
    else
      match t.dropWhile (· ≠ '>') with
      | '>' :: after => some ([], after)
      | _ => none
  | _ => none

/-- Decimal digit list to Nat. -/
def digitsToNat (ds : List Char) : Nat :=
  ds.foldl (fun acc c => acc * 10 + (c.toNat - 48)) 0

/-- Model of the Python stdlib `html.unescape` (line 134; an external
collaborator of the script, not repository code), restricted to the XML
named entities and decimal character references.  Every theorem below
uses this model only through the fact that it rewrites nothing in
`&`-free text, which also holds of the stdlib function. -/
def unescapeTry : List Char → Option (List Char × List Char)
  | '&' :: t =>
    if "amp;".data.isPrefixOf t then some (['&'], t.drop 4)
    else if "lt;".data.isPrefixOf t then some (['<'], t.drop 3)
    else if "gt;".data.isPrefixOf t then some (['>'], t.drop 3)
    else if "quot;".data.isPrefixOf t then some (['"'], t.drop 5)
    else if "apos;".data.isPrefixOf t then some ([Char.ofNat 39], t.drop 5)
    else
      match t with
      | '#' :: t2 =>
        let ds := t2.takeWhile Char.isDigit
        if ds = [] then none
        else
          match t2.dropWhile Char.isDigit with
          | ';' :: after => some ([Char.ofNat (digitsToNat ds % 1114112)], after)
          | _ => none
      | _ => none
  | _ => none

/-- Matcher for `re.sub(r"\n{3,}", "\n\n", text)` (line 157): a greedy
match takes a maximal run of at least three newlines and is replaced by
exactly two. -/
def collapseTry : List Char → Option (List Char × List Char)
  | '\n' :: t =>
    let run := t.takeWhile (· == '\n')
    if 2 ≤ run.length then some (['\n', '\n'], t.drop run.length) else none
  | _ => none

/-- `_inline_tags_to_md` (lines 87–104). -/
def inline_tags_to_md (s : List Char) : List Char :=
  runSub inlineTagTry s

/-- `_html_to_md` (lines 107–135): the fixed HTML-fragment pipeline. -/
def html_to_md (s : List Char) : List Char :=
  let s1 := runSub (headingTry 6) s
  let s2 := runSub (headingTry 5) s1
  let s3 := runSub (headingTry 4) s2
  let s4 := runSub (headingTry 3) s3
  let s5 := runSub (headingTry 2) s4
  let s6 := runSub (headingTry 1) s5
  let s7 := runSub ulolTry s6
  let s8 := runSub liTry s7
  let s9 := runSub closeLiTry s8
  let s10 := runSub (pairTry "b>".data "</b>".data "**".data "**".data) s9
  let s11 := runSub (pairTry "strong>".data "</strong>".data "**".data "**".data) s10
  let s12 := runSub (pairTry "i>".data "</i>".data "*".data "*".data) s11
  let s13 := runSub (pairTry "em>".data "</em>".data "*".data "*".data) s12
  let s14 := runSub (pairTry "code>".data "</code>".data "`".data "`".data) s13
  let s15 := runSub (pairTry "tt>".data "</tt>".data "`".data "`".data) s14
  let s16 := runSub pTry s15
  let s17 := runSub closePTry s16
  let s18 := runSub brTry s17
  let s19 := runSub genericTagTry s18
  runSub unescapeTry s19

/-- The `_strip_javadoc_stars` guard of `_convert_description`
(line 140). -/
def star_stage (raw : List Char) : List Char :=
  if "/**".data.isPrefixOf raw then strip_javadoc_stars raw else raw

/-- `_convert_description` up to (excluding) the blank-line collapse:
star stripping, the two `<pre>` rewrites, inline tags, HTML
(lines 140–155). -/
def pre_collapse_stages (raw : List Char) : List Char :=
  html_to_md (inline_tags_to_md (runSub prePlainTry (runSub preCodeTry (star_stage raw))))

/-- `re.sub(r"\n{3,}", "\n\n", text)` (line 157). -/
def collapse_blank_runs (s : List Char) : List Char :=
  runSub collapseTry s

/-- `_convert_description` (lines 138–158). -/
def convert_description (raw : List Char) : List Char :=
  pyStrip (collapse_blank_runs (pre_collapse_stages raw))

/-- The tag chunks of a raw comment (everything after the first
`\n\s*@` boundary, one chunk per block tag). -/
def tagChunksOf (raw : List Char) : List (List Char) :=
  (splitTagBoundaries (strip_javadoc_stars raw)).tail

/-- The tag loop of `_parse_javadoc_block` over all chunks, in order;
`none` propagates a raised `IndexError` (the loop appends each `Tag` to
`tags` and an exception aborts the whole call). -/
def parseChunks : List (List Char) → Option (List Tag)
  | [] => some []
  | c :: cs =>
    match parseChunk c, parseChunks cs with
    | some t, some ts => some (t :: ts)
    | _, _ => none

/-- `_parse_javadoc_block` (lines 161–198): split a raw Javadoc block
into `(description, tags)`.  `none` models an uncaught `IndexError`. -/
def parse_javadoc_block (raw : List Char) :
    Option (List Char × List Tag) :=
  -- `re.split` always returns at least one element, so `tag_split[0]`
  -- cannot fail: the description is the head, the tag chunks the tail.
  let chunks := splitTagBoundaries (strip_javadoc_stars raw)
  (parseChunks chunks.tail).map fun tags => (pyStrip (chunks.headD []), tags)

/-! ### Member extraction

Embedding of the per-member loop body of `parse_java_file`
(source lines 365–417) together with its helpers `_extract_modifiers`,
`_guess_member_kind` and `_parse_member_signature` (lines 242–264).
The loop pairs one Javadoc block (`jdText`) with the source text that
follows it (`after`, the 600-character lookahead window sliced by the
caller) and either appends one `MemberDoc` or skips the pair; the
embedding `processMember` returns `none` exactly on the skip paths (and
on a propagated `_parse_javadoc_block` failure, where CPython would
abort the file with an exception and hence also append nothing). -/

/-- `MemberDoc` dataclass (lines 39–47). -/
structure MemberDoc where
  kind : List Char
  name : List Char
  signature : List Char
  description : List Char
  tags : List Tag
  modifiers : List (List Char)
  deprecated : Bool
deriving DecidableEq

/-- `_MODIFIERS` (lines 210–211). -/
def MODIFIERS : List (List Char) :=
  ["public".data, "protected".data, "private".data, "static".data,
   "abstract".data, "final".data, "default".data, "synchronized".data,
   "native".data, "strictfp".data, "sealed".data, "non-sealed".data]

/-- `_extract_modifiers` (lines 242–243): whitespace-tokenise and keep
the known modifier keywords. -/
def extract_modifiers (textBefore : List Char) : List (List Char) :=
  (pySplitWsAll (textBefore.length + 1) textBefore).filter (· ∈ MODIFIERS)

/-- `re.search(r"\w+\s*\(", …)` as a Boolean (`_guess_member_kind`,
lines 246–251): somewhere a word-character run is followed, after
optional whitespace, by `(`. -/
def hasWordParen : List Char → Bool
  | [] => false
  | c :: rest =>
    (isWordChar c &&
      ((((c :: rest).dropWhile isWordChar).dropWhile pyIsSpace).headD ' ' == '(')) ||
    hasWordParen rest

/-- `_guess_member_kind` (lines 246–251). -/
def guess_member_kind (text : List Char) : List Char :=
  if hasWordParen (pyStrip text) then "method".data else "field".data

/-- `re.search(r"(\w+)\s*\(", sig)` capture (line 257).  The leftmost
match starts at the beginning of the first maximal word run whose first
non-whitespace successor is `(`; the greedy `\w+` captures that whole
run (no shorter split can succeed because a word character can satisfy
neither `\s` nor `\(`). -/
def findMethodName : List Char → Option (List Char)
  | [] => none
  | c :: rest =>
    if isWordChar c &&
        ((((c :: rest).dropWhile isWordChar).dropWhile pyIsSpace).headD ' ' == '(')
    then some ((c :: rest).takeWhile isWordChar)
    else findMethodName rest

/-- `re.search(r"(\w+)\s*(?:[=;]|$)", sig)` capture (line 261).  Same
leftmost-run argument; `$` (no `re.MULTILINE`) holds at the end of the
string or just before a final newline, and since `\s*` can absorb any
trailing whitespace including that newline, the condition is: after the
word run and any whitespace comes `=`, `;`, or the end. -/
def findFieldName : List Char → Option (List Char)
  | [] => none
  | c :: rest =>
    if isWordChar c &&
        (match (((c :: rest).dropWhile isWordChar).dropWhile pyIsSpace) with
         | [] => true
         | '=' :: _ => true
         | ';' :: _ => true
         | _ => false)
    then some ((c :: rest).takeWhile isWordChar)
    else findFieldName rest

/-- `_parse_member_signature` (lines 254–264): `(name, cleaned_signature)`. -/
def parse_member_signature (sigLine : List Char) : List Char × List Char :=
  match findMethodName sigLine with
  | some n => (n, pyStrip sigLine)
  | none =>
    match findFieldName sigLine with
    | some n => (n, pyStrip sigLine)
    | none => ("unknown".data, pyStrip sigLine)

/-- One `(?:@\w+(?:\([^)]*\))?\s*)` repetition step plus the greedy `+`
loop of the annotation-stripping regex (line 370): consume `@`, a
nonempty word run, an optional parenthesised argument list (taken only
when a closing `)` exists — otherwise the optional group fails and the
repetition ends at the following `(`), then whitespace; stop before the
first position that does not start another `@word`. -/
def annotGo : Nat → List Char → List Char
  | 0, t => t
  | fuel + 1, t =>
    match t with
    | '@' :: rest =>
      if rest.takeWhile isWordChar = [] then t
      else
        let r2 := rest.dropWhile isWordChar
        let r3 :=
          match r2 with
          | '(' :: inner =>
            match inner.dropWhile (· ≠ ')') with
            | ')' :: afterParen => afterParen
            | _ => r2
          | _ => r2
        annotGo fuel (r3.dropWhile pyIsSpace)
    | _ => t

/-- `re.sub(r"^\s*(?:@\w+(?:\([^)]*\))?\s*)+", "", after)` (line 370):
anchored at the string start (no `re.MULTILINE`), so there is at most
one match; it requires at least one annotation after the leading
whitespace, else the text is returned unchanged. -/
def annotStrip (s : List Char) : List Char :=
  match s.dropWhile pyIsSpace with
  | '@' :: rest =>
    if rest.takeWhile isWordChar = [] then s
    else annotGo (s.length + 1) ('@' :: rest)
  | _ => s

/-- `after_stripped = re.sub(…).strip()` (line 370). -/
def after_stripped (after : List Char) : List Char :=
  pyStrip (annotStrip after)

/-- `str.find(c)` with `-1` replaced by the length (the `sig_end`
computation, lines 373–376). -/
def findIdxOrLen (c : Char) (t : List Char) : Nat :=
  ((t.findIdx? (· == c)).getD t.length)

/-- `sig_line` (lines 373–377): the stripped text up to the first `{` or
`;` of the annotation-stripped lookahead. -/
def sig_line_of (after : List Char) : List Char :=
  let t := after_stripped after
  pyStrip (t.take (min (findIdxOrLen '\x7b' t) (findIdxOrLen ';' t)))

/-- Whole-word occurrence (regex `\bword\b` for a word made of word
characters): an occurrence whose neighbours on both sides are absent or
non-word.  `prevWord` tracks whether the previous character was a word
character. -/
def hasWordOccur (w : List Char) : Bool → List Char → Bool
  | _, [] => false
  | prevWord, c :: rest =>
    (!prevWord && w.isPrefixOf (c :: rest) &&
      !(((c :: rest).drop w.length).headD ' ' |> isWordChar)) ||
    hasWordOccur w (isWordChar c) rest

/-- `re.search(r"\b(?:class|interface|enum|record|@interface)\b",
sig_line)` as a Boolean (line 382).  The `@interface` alternative is
subsumed by the `interface` one (any match of `\b@interface\b` contains
a match of `\binterface\b` right after the `@`), so the four plain
keywords decide the search. -/
def containsClassKw (s : List Char) : Bool :=
  hasWordOccur "class".data false s || hasWordOccur "interface".data false s ||
  hasWordOccur "enum".data false s || hasWordOccur "record".data false s

/-- Lines 393–417 of the member loop, after `_parse_javadoc_block`
succeeded on the member's Javadoc: build the `MemberDoc` (with the
enum/annotation reclassification and the private-member filter). -/
def processMemberDoc (kind sig mdescRaw : List Char) (mtags : List Tag) :
    Option MemberDoc :=
  let mdesc := if mdescRaw ≠ [] then convert_description mdescRaw else []
  let mdep := mtags.any (fun t => t.name == "deprecated".data)
  let memberKind0 := guess_member_kind sig
  let memberKind :=
    if kind = "enum".data ∧ memberKind0 = "field".data then "constant".data
    else if kind = "annotation".data ∧ memberKind0 = "method".data then
      "element".data
    else memberKind0
  -- `sig_line.split("(")[0] if "(" in sig_line else sig_line` is the
  -- text before the first `(`, i.e. `takeWhile (· ≠ '(')` in both cases
  let mods := extract_modifiers (sig.takeWhile (· ≠ '('))
  if "private".data ∈ mods ∧ mdesc = [] ∧ mtags = [] then none
  else
    some ⟨memberKind, (parse_member_signature sig).1,
      (parse_member_signature sig).2, mdesc, mtags, mods, mdep⟩

/-- The member-loop body of `parse_java_file` (lines 365–417) for one
Javadoc block `jd` and its lookahead window `after`, in the context of a
primary declaration of kind `kind`.  Returns the `MemberDoc` appended to
`doc.members`, or `none` when the pair is skipped. -/
def processMember (kind : List Char) (jd : List Char) (after : List Char) :
    Option MemberDoc :=
  let sig := sig_line_of after
  if sig = [] then none
  else if containsClassKw sig then none
  else if (parse_member_signature sig).1 = [] ∨
      (parse_member_signature sig).1 = "unknown".data then none
  else
    match parse_javadoc_block jd with
    | none => none
    | some (mdescRaw, mtags) => processMemberDoc kind sig mdescRaw mtags

/-! ### Renderer: package-index first-sentence cell

Embedding of the description cell of `render_package_index`
(source lines 608–611): first sentence (text before the first `.`),
newlines to spaces, stripped, truncated at 100 characters to 97
characters plus `…`. -/

/-- The description cell of a package-index row (lines 608–611). -/
def package_index_first_sentence (description : List Char) : List Char :=
  let fs :=
    pyStrip ((description.takeWhile (· ≠ '.')).map fun c =>
      if c = '\n' then ' ' else c)
  if 100 < fs.length then fs.take 97 ++ ['…'] else fs

/-! ### Specification-side characterisation of the blank-line collapse

`collapse_runs_spec` restates the final cleanup of
`_convert_description` the way the specification describes it: split
the text into maximal runs of equal characters and replace every
newline run of length at least three by exactly two newlines.  It is a
second, independent definition to be compared with the scanner
`collapse_blank_runs` embedded from the source. -/

/-- Maximal runs of equal characters, in order. -/
def charRuns : List Char → List (List Char)
  | [] => []
  | c :: t => (c :: t.takeWhile (· == c)) :: charRuns (t.dropWhile (· == c))
termination_by s => s.length
decreasing_by
  simp only [List.length_cons]
  exact Nat.lt_succ_of_le (List.dropWhile_suffix _).length_le

/-- What the specification prescribes for one maximal run: a newline run
of length at least three becomes exactly two newlines, anything else is
kept. -/
def mapRun (r : List Char) : List Char :=
  if r.headD ' ' = '\n' ∧ 3 ≤ r.length then ['\n', '\n'] else r

/-- Specification-side blank-line collapse: every maximal newline run of
length `≥ 3` becomes exactly two newlines; all other runs are kept. -/
def collapse_runs_spec (s : List Char) : List Char :=
  ((charRuns s).map mapRun).flatten

/-! ### Auxiliary predicates for hypotheses -/

/-- `s` contains three consecutive newline characters (i.e. the collapse
regex `\n{3,}` has a match). -/
def hasTripleNL : List Char → Bool
  | [] => false
  | c :: rest => (c == '\n' && rest.take 2 == ['\n', '\n']) || hasTripleNL rest

/-- Length of the trailing newline run. -/
def suffRunNL : List Char → Nat
  | [] => 0
  | c :: t => if suffRunNL t = t.length ∧ c = '\n' then suffRunNL t + 1 else suffRunNL t

/-- Length of the leading newline run. -/
def prefRunNL (s : List Char) : Nat :=
  (s.takeWhile (· == '\n')).length

/-! ### Directory-ordering metadata files (`.pages`)

Model of `_write_dir_pages` (source lines 660–692) over a pure
file-system model: a run's output tree is the list `fs` of its file
paths relative to the output root (each path a list of name
components).  `pathlib` facts used by the model:

* `directory.rglob("*")` yields every strict descendant of `directory`
  — files and directories — but never `directory` itself; descendant
  directories are exactly the nonempty proper prefixes of file paths.
* `Path(name).suffix == ".md"` holds iff `name` ends in `".md"` with a
  nonempty stem (`".md"` itself has no suffix).
* `sorted` on names (`str`) is lexicographic by code point.  `sorted`
  on `Path` objects orders distinct directories in a
  Python-version-dependent way (parts-tuple order up to 3.11, joined
  string order later); the two orders agree on the usual inputs and no
  statement proved below depends on the relative order of distinct
  directories, so the model fixes the parts-tuple order.
* the `.pages` files written by the function never appear in any
  listing: a directory's children are listed before its own `.pages`
  file is written, and the iteration list is materialised before any
  write. -/

/-- Code-point lexicographic order on character lists (Python `<=` on
strings). -/
def lexLe : List Char → List Char → Bool
  | [], _ => true
  | _ :: _, [] => false
  | a :: as, b :: bs => if a = b then lexLe as bs else decide (a < b)

/-- Python `<=` on strings. -/
def strLe (a b : String) : Bool :=
  lexLe a.data b.data

/-- `<=` on relative paths, componentwise like the parts-tuple order
(see the note on `sorted` above: only used for iteration order). -/
def pathLe : List String → List String → Bool
  | [], _ => true
  | _ :: _, [] => false
  | a :: as, b :: bs => if a = b then pathLe as bs else strLe a b

/-- Insertion into a sorted list (stable, like Python `sorted`). -/
def insertBy (le : α → α → Bool) (x : α) : List α → List α
  | [] => [x]
  | y :: ys => if le x y then x :: y :: ys else y :: insertBy le x ys

/-- Insertion sort (stable, like Python `sorted`). -/
def sortBy (le : α → α → Bool) : List α → List α
  | [] => []
  | x :: xs => insertBy le x (sortBy le xs)

/-- The nonempty proper prefixes of a file path: the directories on the
way to the file, root excluded. -/
def properPrefixes (p : List String) : List (List String) :=
  (List.range p.length).filterMap fun i => if i = 0 then none else some (p.take i)

/-- The directories strictly below the output root (what
`out_dir.rglob("*")` yields once files are filtered out). -/
def dirsOf (fs : List (List String)) : List (List String) :=
  ((fs.map properPrefixes).flatten).dedup

/-- Names of the file children of directory `d`. -/
def childFileNames (fs : List (List String)) (d : List String) : List String :=
  (fs.filterMap fun p =>
    if d.isPrefixOf p then
      match p.drop d.length with
      | [n] => some n
      | _ => none
    else none).dedup

/-- Names of the directory children of directory `d` (before the hidden
filter). -/
def childDirNames (fs : List (List String)) (d : List String) : List String :=
  (fs.filterMap fun p =>
    if d.isPrefixOf p then
      match p.drop d.length with
      | n :: _ :: _ => some n
      | _ => none
    else none).dedup

/-- `Path(name).suffix == ".md"`. -/
def hasMdSuffix (n : String) : Bool :=
  ".md".data.isSuffixOf n.data && 4 ≤ n.data.length

/-- `children_md` (lines 675–677): all children whose suffix is `.md`,
sorted.  `iterdir` yields files and directories alike, so a directory
whose name ends in `.md` would also be listed; `.dedup` models the
uniqueness of names inside one filesystem directory. -/
def childrenMdSorted (fs : List (List String)) (d : List String) : List String :=
  sortBy strLe
    (((childFileNames fs d) ++ (childDirNames fs d)).dedup.filter hasMdSuffix)

/-- `children_dirs` (lines 672–674): non-hidden directory children,
sorted. -/
def childrenDirsSorted (fs : List (List String)) (d : List String) : List String :=
  sortBy strLe ((childDirNames fs d).filter fun n => !".".data.isPrefixOf n.data)

/-- `ordered_md` (lines 679–682): `index.md` first if present. -/
def orderedMd (mds : List String) : List String :=
  if mds.contains "index.md" then "index.md" :: mds.filter (· ≠ "index.md")
  else mds

/-- The content of one `.pages` file (lines 684–691). -/
def pagesContent (mds dirs : List String) : List Char :=
  "nav:\n".data ++
    joinNL ((orderedMd mds ++ dirs).map fun n => "  - ".data ++ n.data) ++ ['\n']

/-- `_write_dir_pages` (lines 660–692) as a pure function: the list of
`(directory, contents)` pairs of the `.pages` files it writes, in
iteration order.  Directories with no listable children get no file
(the `if nav_entries` guard); the output root is not visited at all
because `rglob` excludes it. -/
def write_dir_pages (fs : List (List String)) :
    List (List String × List Char) :=
  (sortBy pathLe (dirsOf fs)).filterMap fun d =>
    let mds := childrenMdSorted fs d
    let ds := childrenDirsSorted fs d
    if mds = [] ∧ ds = [] then none
    else some (d, pagesContent mds ds)

/-! ## Theorems -/

/-! ### Basic lemmas about the Python string primitives -/

theorem dropWhile_head_false (p : Char → Bool) :
    ∀ (l : List Char) (a : Char) (t : List Char),
      l.dropWhile p = a :: t → p a = false := by
  intro l
  induction l with
  | nil => intro a t h; simp at h
  | cons c r ih =>
    intro a t h
    rw [List.dropWhile_cons] at h
    by_cases hc : p c
    · rw [if_pos hc] at h; exact ih a t h
    · rw [if_neg hc] at h
      injection h with h1 _
      subst h1
      simpa using hc

theorem pyStrip_ne_nil_head (l : List Char) (h : pyStrip l ≠ []) :
    ∃ a t, pyStrip l = a :: t ∧ pyIsSpace a = false := by
  cases hx : pyStrip l with
  | nil => exact absurd hx h
  | cons a t =>
    refine ⟨a, t, rfl, ?_⟩
    obtain ⟨s, hs⟩ :=
      List.rdropWhile_prefix pyIsSpace (l.dropWhile pyIsSpace)
    rw [show (l.dropWhile pyIsSpace).rdropWhile pyIsSpace = a :: t from hx]
      at hs
    exact dropWhile_head_false pyIsSpace l a (t ++ s) (by rw [← hs]; simp)

theorem pySplitWsOnce_shape (s : List Char) :
    pySplitWsOnce s = [] ∨ (∃ t, pySplitWsOnce s = [t]) ∨
      ∃ t r, pySplitWsOnce s = [t, r] := by
  by_cases h1 : s.dropWhile pyIsSpace = []
  · left; simp [pySplitWsOnce, h1]
  · by_cases h2 : ((s.dropWhile pyIsSpace).dropWhile
        (fun c => !pyIsSpace c)).dropWhile pyIsSpace = []
    · right; left
      exact ⟨(s.dropWhile pyIsSpace).takeWhile (fun c => !pyIsSpace c),
        by simp [pySplitWsOnce, h1, h2]⟩
    · right; right
      exact ⟨(s.dropWhile pyIsSpace).takeWhile (fun c => !pyIsSpace c),
        ((s.dropWhile pyIsSpace).dropWhile
          (fun c => !pyIsSpace c)).dropWhile pyIsSpace,
        by simp [pySplitWsOnce, h1, h2]⟩

theorem pySplitWsOnce_second_head (s x r : List Char)
    (h : pySplitWsOnce s = [x, r]) :
    ∃ a t, r = a :: t ∧ pyIsSpace a = false := by
  simp only [pySplitWsOnce] at h
  split at h
  · exact absurd h (by simp)
  · split at h
    · exact absurd h (by simp)
    · rename_i hrest
      injection h with h1 h2
      injection h2 with h2 _
      subst h2
      cases hr : ((s.dropWhile pyIsSpace).dropWhile
          (fun c => !pyIsSpace c)).dropWhile pyIsSpace with
      | nil => exact absurd hr hrest
      | cons a t =>
        exact ⟨a, t, rfl, dropWhile_head_false pyIsSpace _ a t hr⟩

/-! ### C1: parameter tags -/

theorem parseChunk_eq_some (c : List Char) (t : Tag)
    (h : parseChunk c = some t) : t = chunkTag c := by
  unfold parseChunk at h
  split at h
  · exact Option.noConfusion h
  · split at h
    · exact Option.noConfusion h
    · exact (Option.some_inj.mp h).symm

theorem parseChunks_eq_some :
    ∀ (cs : List (List Char)) (ts : List Tag),
      parseChunks cs = some ts → ts = cs.map chunkTag := by
  intro cs
  induction cs with
  | nil =>
    intro ts h
    simp only [parseChunks, Option.some_inj] at h
    simp [← h]
  | cons c cs ih =>
    intro ts h
    unfold parseChunks at h
    cases hc : parseChunk c with
    | none => rw [hc] at h; exact Option.noConfusion h
    | some t =>
      cases hcs : parseChunks cs with
      | none => rw [hc, hcs] at h; exact Option.noConfusion h
      | some ts' =>
        rw [hc, hcs] at h
        rw [Option.some_inj] at h
        subst h
        rw [List.map_cons, ← ih ts' hcs, parseChunk_eq_some c t hc]

theorem parse_javadoc_block_tags (raw d : List Char) (tags : List Tag)
    (h : parse_javadoc_block raw = some (d, tags)) :
    tags = (tagChunksOf raw).map chunkTag := by
  simp only [parse_javadoc_block] at h
  cases hp : parseChunks (splitTagBoundaries (strip_javadoc_stars raw)).tail with
  | none => rw [hp] at h; exact Option.noConfusion h
  | some ts =>
    rw [hp] at h
    simp only [Option.map_some'] at h
    rw [Option.some_inj] at h
    injection h with _ h2
    subst h2
    exact parseChunks_eq_some _ ts hp

theorem chunkRemainder0_head (c : List Char) (h : chunkRemainder0 c ≠ []) :
    ∃ a t, chunkRemainder0 c = a :: t ∧ pyIsSpace a = false := by
  unfold chunkRemainder0 at *
  rcases pySplitWsOnce_shape (chunkFirst c) with h0 | ⟨t0, h1⟩ | ⟨t0, r0, h2⟩
  · rw [show chunkParts c = [] from h0] at h ⊢
    exact absurd rfl h
  · rw [show chunkParts c = [t0] from h1] at h ⊢
    exact absurd rfl h
  · rw [show chunkParts c = [t0, r0] from h2] at h ⊢
    exact pySplitWsOnce_second_head (chunkFirst c) t0 r0 h2

theorem chunkRemainder_head (c : List Char) (h : chunkRemainder c ≠ []) :
    ∃ a t, chunkRemainder c = a :: t ∧ pyIsSpace a = false := by
  unfold chunkRemainder at *
  by_cases hr : chunkRest c ≠ []
  · rw [if_pos hr] at h ⊢
    exact pyStrip_ne_nil_head _ h
  · rw [if_neg hr] at h ⊢
    exact chunkRemainder0_head c h

theorem chunkArg_ne_nil (c : List Char)
    (hname : chunkName c = "param".data) (hrem : chunkRemainder c ≠ []) :
    (chunkTag c).arg ≠ [] := by
  have harg : (chunkTag c).arg
      = (pySplitWsOnce (chunkRemainder c)).headD [] := by
    show chunkArg c = _
    unfold chunkArg
    rw [if_pos (by rw [hname]; decide)]
  obtain ⟨a, t, he, ha⟩ := chunkRemainder_head c hrem
  have h1 : (a :: t).dropWhile pyIsSpace = a :: t := by
    rw [List.dropWhile_cons, if_neg (by simp [ha])]
  have h2 : (a :: t).takeWhile (fun ch => !pyIsSpace ch)
      = a :: t.takeWhile (fun ch => !pyIsSpace ch) := by
    rw [List.takeWhile_cons, if_pos (by simp [ha])]
  rw [harg, he]
  simp only [pySplitWsOnce, h1, h2]
  rw [if_neg (by simp)]
  split <;> simp

/-- C1 counterexample: the claim requires every parsed `param` entry to
have a non-empty `arg`, but a bare `@param` block tag (no argument
token) parses to a `param` tag with `arg = ""` — the edge case the spec
itself documents in section 4.1. -/
theorem c1_counterexample :
    parse_javadoc_block "/** d\n@param*/".data
      = some ("d".data, [⟨"param".data, [], []⟩]) ∧
    (Tag.mk "param".data [] []).name = "param".data ∧
    (Tag.mk "param".data [] []).arg = [] := by
  exact ⟨by decide, rfl, rfl⟩

/-- C1 amended: for every comment block that parses, the tag list is
exactly the per-chunk parse of the tag chunks, in source order — so a
block with N `param` chunks yields exactly N `param` entries in source
order — and every `param` entry whose chunk carries content after the
tag name has a non-empty `arg` (a bare `@param` yields `arg = ""`). -/
theorem c1_param_tags (raw d : List Char) (tags : List Tag)
    (h : parse_javadoc_block raw = some (d, tags)) :
    tags = (tagChunksOf raw).map chunkTag ∧
    (tags.filter fun t => t.name = "param".data).length
      = ((tagChunksOf raw).filter fun ch =>
          chunkName ch = "param".data).length ∧
    (∀ ch ∈ tagChunksOf raw, chunkName ch = "param".data →
      chunkRemainder ch ≠ [] → (chunkTag ch).arg ≠ []) := by
  have ht := parse_javadoc_block_tags raw d tags h
  refine ⟨ht, ?_, ?_⟩
  · rw [ht, List.filter_map, List.length_map]
    rfl
  · intro ch _ hname hrem
    exact chunkArg_ne_nil ch hname hrem

/-- C1 witness: a concrete block with two `param` tags parses to exactly
two `param` entries in order, and the arguments are the two parameter
names. -/
theorem c1_param_tags_witness :
    parse_javadoc_block
        "/** Sum.\n * @param a first\n * @param b second\n * @return total\n */".data
      = some ("Sum.".data,
          [⟨"param".data, "a".data, "first".data⟩,
           ⟨"param".data, "b".data, "second".data⟩,
           ⟨"return".data, [], "total".data⟩]) ∧
    ([⟨"param".data, "a".data, "first".data⟩,
      ⟨"param".data, "b".data, "second".data⟩,
      (⟨"return".data, [], "total".data⟩ : Tag)].filter fun t =>
        t.name = "param".data).length = 2 := by
  have h : parse_javadoc_block
      "/** Sum.\n * @param a first\n * @param b second\n * @return total\n */".data
      = some ("Sum.".data,
          [⟨"param".data, "a".data, "first".data⟩,
           ⟨"param".data, "b".data, "second".data⟩,
           ⟨"return".data, [], "total".data⟩]) := by decide
  refine ⟨h, ?_⟩
  have h2 := (c1_param_tags _ _ _ h).2.1
  rw [h2]
  decide

/-- C5: the specification claims that a block-tag boundary followed by no
content (an empty chunk) yields a `Tag` with `arg=""`, `text=""` and no
error.  The code instead raises an uncaught `IndexError`: the empty
chunk gives `lines = "".splitlines() = []`, and `lines[0]` fails
(modelled as `none`).  `"/** a\n@*/"` is a concrete comment block whose
body `"a\n@"` splits into the description `"a"` and one empty chunk. -/
theorem c5_empty_chunk_crash :
    tagChunksOf "/** a\n@*/".data = [[]] ∧
    parseChunk [] = none ∧
    parse_javadoc_block "/** a\n@*/".data = none := by
  refine ⟨by decide, by decide, by decide⟩

/-- C7 counterexample: the claim says a 130-character first sentence
produces 97 characters plus an ellipsis marker "for 100 characters
total".  The marker `…` is a single character, so the result length is
98, not 100. -/
theorem c7_counterexample :
    package_index_first_sentence (List.replicate 130 'a')
      = List.replicate 97 'a' ++ ['…'] ∧
    (package_index_first_sentence (List.replicate 130 'a')).length = 98 ∧
    (package_index_first_sentence (List.replicate 130 'a')).length ≠ 100 := by
  refine ⟨by decide, by decide, by decide⟩

/-- C7 amended: a first sentence longer than 100 characters (in
particular a 130-character one) is truncated to exactly its first 97
characters plus the one-character ellipsis marker, for 98 characters
total. -/
theorem c7_truncation (desc : List Char)
    (h : 100 < (pyStrip ((desc.takeWhile (· ≠ '.')).map fun c =>
      if c = '\n' then ' ' else c)).length) :
    package_index_first_sentence desc
      = (pyStrip ((desc.takeWhile (· ≠ '.')).map fun c =>
          if c = '\n' then ' ' else c)).take 97 ++ ['…'] ∧
    (package_index_first_sentence desc).length = 98 := by
  unfold package_index_first_sentence
  rw [if_pos h]
  refine ⟨rfl, ?_⟩
  rw [List.length_append, List.length_take]
  simp only [List.length_singleton]
  omega

/-- C7 witness: the truncation theorem applied to a concrete
101-character first sentence. -/
theorem c7_truncation_witness :
    100 < (pyStrip (((List.replicate 101 'b').takeWhile (· ≠ '.')).map fun c =>
      if c = '\n' then ' ' else c)).length ∧
    (package_index_first_sentence (List.replicate 101 'b')).length = 98 :=
  ⟨by decide, (c7_truncation (List.replicate 101 'b') (by decide)).2⟩

/-- C10: every `MemberDoc` the extractor appends has a non-empty name —
comment/declaration pairs whose signature parse yields the empty or
`"unknown"` fallback name are skipped, so no member in the model is
nameless. -/
theorem c10_member_name_nonempty (kind jd after : List Char) (m : MemberDoc)
    (h : processMember kind jd after = some m) :
    m.name ≠ [] ∧ m.name ≠ "unknown".data := by
  simp only [processMember] at h
  by_cases h1 : sig_line_of after = []
  · rw [if_pos h1] at h; cases h
  rw [if_neg h1] at h
  by_cases h2 : containsClassKw (sig_line_of after) = true
  · rw [if_pos h2] at h; cases h
  rw [if_neg h2] at h
  by_cases h3 : (parse_member_signature (sig_line_of after)).1 = [] ∨
      (parse_member_signature (sig_line_of after)).1 = "unknown".data
  · rw [if_pos h3] at h; cases h
  rw [if_neg h3] at h
  push_neg at h3
  split at h
  · exact Option.noConfusion h
  rename_i mdescRaw mtags heq
  simp only [processMemberDoc] at h
  by_cases h4 : "private".data ∈
      extract_modifiers ((sig_line_of after).takeWhile (· ≠ '(')) ∧
      (if mdescRaw ≠ [] then convert_description mdescRaw else []) = [] ∧
      mtags = []
  · rw [if_pos h4] at h; cases h
  rw [if_neg h4] at h
  rw [Option.some_inj] at h
  subst h
  exact h3

/-- C10 witness: a concrete documented method, extracted, has the
non-empty name `run`. -/
theorem c10_member_name_nonempty_witness :
    processMember "class".data "/** Runs. */".data
        "public void run() \x7b\n\x7d".data
      = some ⟨"method".data, "run".data, "public void run()".data,
          "Runs.".data, [], ["public".data], false⟩ ∧
    ("run".data : List Char) ≠ [] :=
  ⟨by decide,
   (c10_member_name_nonempty "class".data "/** Runs. */".data
      "public void run() \x7b\n\x7d".data
      ⟨"method".data, "run".data, "public void run()".data,
        "Runs.".data, [], ["public".data], false⟩ (by decide)).1⟩

/-! ### Identity of substitution passes on text without their trigger
character

Every matcher embedded from the script can only fire on a suffix whose
first character is its construct's opening character (`<`, `{`, `&` or
`\n`); on text free of that character a pass is the identity. -/

theorem subScan_eq_self (tm : List Char → Option (List Char × List Char)) :
    ∀ (s : List Char), (∀ t, t.IsSuffix s → tm t = none) →
      ∀ fuel, subScan tm fuel s = s := by
  intro s
  induction s with
  | nil => intro _ fuel; cases fuel <;> rfl
  | cons c rest ih =>
    intro h fuel
    cases fuel with
    | zero => rfl
    | succ f =>
      have hnone := h (c :: rest) (List.suffix_refl _)
      have hrest := ih (fun t ht => h t (ht.trans (List.suffix_cons c rest))) f
      calc subScan tm (f + 1) (c :: rest)
          = c :: subScan tm f rest := by simp only [subScan, hnone]
        _ = c :: rest := by rw [hrest]

theorem runSub_eq_self (tm : List Char → Option (List Char × List Char))
    (s : List Char) (h : ∀ t, t.IsSuffix s → tm t = none) :
    runSub tm s = s :=
  subScan_eq_self tm s h _

theorem suffix_headD_ne (s t : List Char) (c0 : Char) (ht : t.IsSuffix s)
    (hc : c0 ∉ s) (hsp : c0 ≠ ' ') : t.headD ' ' ≠ c0 := by
  cases t with
  | nil => simpa using Ne.symm hsp
  | cons a t' =>
    have ha : a ∈ s := ht.subset (by simp)
    simp only [List.headD_cons]
    exact fun he => hc (he ▸ ha)

theorem preCodeTry_gate (t : List Char) (h : t.headD ' ' ≠ '<') :
    preCodeTry t = none := by
  cases t with
  | nil => rfl
  | cons c r =>
    unfold preCodeTry
    split
    · rename_i heq
      injection heq with h1 _
      simp_all
    · rfl

theorem prePlainTry_gate (t : List Char) (h : t.headD ' ' ≠ '<') :
    prePlainTry t = none := by
  cases t with
  | nil => rfl
  | cons c r =>
    unfold prePlainTry
    split
    · rename_i heq
      injection heq with h1 _
      simp_all
    · rfl

theorem inlineTagTry_gate (t : List Char) (h : t.headD ' ' ≠ '\x7b') :
    inlineTagTry t = none := by
  cases t with
  | nil => rfl
  | cons c r =>
    unfold inlineTagTry
    split
    · rename_i heq
      injection heq with h1 _
      simp_all
    · rfl

theorem headingTry_gate (i : Nat) (t : List Char) (h : t.headD ' ' ≠ '<') :
    headingTry i t = none := by
  cases t with
  | nil => rfl
  | cons c r =>
    unfold headingTry
    split
    · rename_i heq
      injection heq with h1 _
      simp_all
    · rfl

theorem ulolTry_gate (t : List Char) (h : t.headD ' ' ≠ '<') :
    ulolTry t = none := by
  cases t with
  | nil => rfl
  | cons c r =>
    unfold ulolTry
    split
    · rename_i heq
      injection heq with h1 _
      simp_all
    · rfl

theorem liTry_gate (t : List Char) (h : t.headD ' ' ≠ '<') :
    liTry t = none := by
  cases t with
  | nil => rfl
  | cons c r =>
    unfold liTry
    split
    · rename_i heq
      injection heq with h1 _
      simp_all
    · rfl

theorem closeLiTry_gate (t : List Char) (h : t.headD ' ' ≠ '<') :
    closeLiTry t = none := by
  cases t with
  | nil => rfl
  | cons c r =>
    unfold closeLiTry
    split
    · rename_i heq
      injection heq with h1 _
      simp_all
    · rfl

theorem pairTry_gate (openRest close wl wr : List Char) (t : List Char)
    (h : t.headD ' ' ≠ '<') : pairTry openRest close wl wr t = none := by
  cases t with
  | nil => rfl
  | cons c r =>
    unfold pairTry
    split
    · rename_i heq
      injection heq with h1 _
      simp_all
    · rfl

theorem pTry_gate (t : List Char) (h : t.headD ' ' ≠ '<') :
    pTry t = none := by
  cases t with
  | nil => rfl
  | cons c r =>
    unfold pTry
    split
    · rename_i heq
      injection heq with h1 _
      simp_all
    · rfl

theorem closePTry_gate (t : List Char) (h : t.headD ' ' ≠ '<') :
    closePTry t = none := by
  cases t with
  | nil => rfl
  | cons c r =>
    unfold closePTry
    split
    · rename_i heq
      injection heq with h1 _
      simp_all
    · rfl

theorem brTry_gate (t : List Char) (h : t.headD ' ' ≠ '<') :
    brTry t = none := by
  cases t with
  | nil => rfl
  | cons c r =>
    unfold brTry
    split
    · rename_i heq
      injection heq with h1 _
      simp_all
    · rfl

theorem genericTagTry_gate (t : List Char) (h : t.headD ' ' ≠ '<') :
    genericTagTry t = none := by
  cases t with
  | nil => rfl
  | cons c r =>
    unfold genericTagTry
    split
    · rename_i heq
      injection heq with h1 _
      simp_all
    · rfl

theorem unescapeTry_gate (t : List Char) (h : t.headD ' ' ≠ '&') :
    unescapeTry t = none := by
  cases t with
  | nil => rfl
  | cons c r =>
    unfold unescapeTry
    split
    · rename_i heq
      injection heq with h1 _
      simp_all
    · rfl

theorem collapseTry_gate (t : List Char) (h : t.headD ' ' ≠ '\n') :
    collapseTry t = none := by
  cases t with
  | nil => rfl
  | cons c r =>
    unfold collapseTry
    split
    · rename_i heq
      injection heq with h1 _
      simp_all
    · rfl

/-- A pass whose matcher only fires on suffixes starting with `c0` is
the identity on `c0`-free text. -/
theorem runSub_id_of_gate (tm : List Char → Option (List Char × List Char))
    (c0 : Char) (hgate : ∀ t, t.headD ' ' ≠ c0 → tm t = none)
    (hsp : c0 ≠ ' ') (s : List Char) (hc : c0 ∉ s) : runSub tm s = s :=
  runSub_eq_self tm s fun t ht => hgate t (suffix_headD_ne s t c0 ht hc hsp)

theorem html_to_md_eq_self (s : List Char) (hlt : '<' ∉ s) (hamp : '&' ∉ s) :
    html_to_md s = s := by
  simp only [html_to_md]
  rw [runSub_id_of_gate (headingTry 6) '<' (headingTry_gate 6) (by decide) s hlt,
    runSub_id_of_gate (headingTry 5) '<' (headingTry_gate 5) (by decide) s hlt,
    runSub_id_of_gate (headingTry 4) '<' (headingTry_gate 4) (by decide) s hlt,
    runSub_id_of_gate (headingTry 3) '<' (headingTry_gate 3) (by decide) s hlt,
    runSub_id_of_gate (headingTry 2) '<' (headingTry_gate 2) (by decide) s hlt,
    runSub_id_of_gate (headingTry 1) '<' (headingTry_gate 1) (by decide) s hlt,
    runSub_id_of_gate ulolTry '<' ulolTry_gate (by decide) s hlt,
    runSub_id_of_gate liTry '<' liTry_gate (by decide) s hlt,
    runSub_id_of_gate closeLiTry '<' closeLiTry_gate (by decide) s hlt,
    runSub_id_of_gate _ '<' (pairTry_gate "b>".data "</b>".data "**".data "**".data) (by decide) s hlt,
    runSub_id_of_gate _ '<' (pairTry_gate "strong>".data "</strong>".data "**".data "**".data) (by decide) s hlt,
    runSub_id_of_gate _ '<' (pairTry_gate "i>".data "</i>".data "*".data "*".data) (by decide) s hlt,
    runSub_id_of_gate _ '<' (pairTry_gate "em>".data "</em>".data "*".data "*".data) (by decide) s hlt,
    runSub_id_of_gate _ '<' (pairTry_gate "code>".data "</code>".data "`".data "`".data) (by decide) s hlt,
    runSub_id_of_gate _ '<' (pairTry_gate "tt>".data "</tt>".data "`".data "`".data) (by decide) s hlt,
    runSub_id_of_gate pTry '<' pTry_gate (by decide) s hlt,
    runSub_id_of_gate closePTry '<' closePTry_gate (by decide) s hlt,
    runSub_id_of_gate brTry '<' brTry_gate (by decide) s hlt,
    runSub_id_of_gate genericTagTry '<' genericTagTry_gate (by decide) s hlt,
    runSub_id_of_gate unescapeTry '&' unescapeTry_gate (by decide) s hamp]

/-! ### The blank-line collapse on triple-newline-free text -/

theorem hasTripleNL_cons (c : Char) (r : List Char) :
    hasTripleNL (c :: r)
      = ((c == '\n' && r.take 2 == ['\n', '\n']) || hasTripleNL r) := rfl

theorem hasTripleNL_of_prefix :
    ∀ (t u : List Char), hasTripleNL (t ++ u) = false → hasTripleNL t = false := by
  intro t
  induction t with
  | nil => intro u _; rfl
  | cons c t' ih =>
    intro u h
    rw [List.cons_append, hasTripleNL_cons] at h
    rw [hasTripleNL_cons]
    rw [Bool.or_eq_false_iff] at h ⊢
    refine ⟨?_, ih u h.2⟩
    rcases h with ⟨hw, -⟩
    rw [Bool.and_eq_false_iff] at hw ⊢
    rcases hw with hw | hw
    · exact Or.inl hw
    · right
      rw [beq_eq_false_iff_ne] at hw ⊢
      intro he
      apply hw
      have hlen : 2 ≤ t'.length := by
        have := congrArg List.length he
        simp only [List.length_take] at this
        simp at this
        omega
      rw [List.take_append_of_le_length hlen] at *
      exact he

theorem hasTripleNL_of_suffix :
    ∀ (s t : List Char), t.IsSuffix s → hasTripleNL s = false →
      hasTripleNL t = false := by
  intro s
  induction s with
  | nil =>
    intro t ht _
    rw [List.suffix_nil.mp ht]
    rfl
  | cons c s' ih =>
    intro t ht h
    rcases List.suffix_cons_iff.mp ht with he | ht'
    · rw [he]; exact h
    · rw [hasTripleNL_cons, Bool.or_eq_false_iff] at h
      exact ih t ht' h.2

theorem take2_of_takeWhile_nl (r : List Char)
    (hlen : 2 ≤ (r.takeWhile (· == '\n')).length) :
    r.take 2 = ['\n', '\n'] := by
  cases r with
  | nil => simp at hlen
  | cons x r1 =>
    rw [List.takeWhile_cons] at hlen
    by_cases hx : (x == '\n') = true
    · rw [if_pos hx] at hlen
      simp only [List.length_cons] at hlen
      cases r1 with
      | nil => simp at hlen
      | cons y r2 =>
        rw [List.takeWhile_cons] at hlen
        by_cases hy : (y == '\n') = true
        · simp only [beq_iff_eq] at hx hy
          simp [hx, hy]
        · rw [if_neg hy] at hlen
          simp at hlen
    · rw [if_neg hx] at hlen
      simp at hlen

theorem collapseTry_none (t : List Char) (h : hasTripleNL t = false) :
    collapseTry t = none := by
  cases t with
  | nil => rfl
  | cons c r =>
    by_cases hc : c = '\n'
    · subst hc
      rw [show collapseTry ('\n' :: r)
        = (if 2 ≤ (r.takeWhile (· == '\n')).length then
            some (['\n', '\n'], r.drop (r.takeWhile (· == '\n')).length)
          else none) from rfl]
      rw [if_neg]
      intro hlen
      rw [hasTripleNL_cons, Bool.or_eq_false_iff, Bool.and_eq_false_iff] at h
      rcases h.1 with hw | hw
      · simp at hw
      · rw [take2_of_takeWhile_nl r hlen] at hw
        simp at hw
    · exact collapseTry_gate (c :: r) (by simpa using hc)

theorem collapse_blank_runs_eq_self (s : List Char)
    (h : hasTripleNL s = false) : collapse_blank_runs s = s :=
  runSub_eq_self collapseTry s
    (fun t ht => collapseTry_none t (hasTripleNL_of_suffix s t ht h))

/-! ### `str.strip()` facts -/

theorem pyStrip_subset (l : List Char) : ∀ c ∈ pyStrip l, c ∈ l := by
  intro c hc
  unfold pyStrip at hc
  have h1 := List.IsPrefix.subset
    (List.rdropWhile_prefix pyIsSpace (l.dropWhile pyIsSpace)) hc
  exact List.IsSuffix.subset (List.dropWhile_suffix pyIsSpace) h1

theorem pyStrip_hasTripleNL (l : List Char) (h : hasTripleNL l = false) :
    hasTripleNL (pyStrip l) = false := by
  have h1 : hasTripleNL (l.dropWhile pyIsSpace) = false :=
    hasTripleNL_of_suffix l _ (List.dropWhile_suffix pyIsSpace) h
  obtain ⟨u, hu⟩ := List.rdropWhile_prefix pyIsSpace (l.dropWhile pyIsSpace)
  refine hasTripleNL_of_prefix (pyStrip l) u ?_
  show hasTripleNL ((l.dropWhile pyIsSpace).rdropWhile pyIsSpace ++ u) = false
  rw [hu]
  exact h1

theorem pyStrip_idem (l : List Char) : pyStrip (pyStrip l) = pyStrip l := by
  have h1 : (pyStrip l).dropWhile pyIsSpace = pyStrip l := by
    cases hx : pyStrip l with
    | nil => rfl
    | cons a t =>
      obtain ⟨a', t', he, ha⟩ := pyStrip_ne_nil_head l (by rw [hx]; simp)
      rw [hx] at he
      injection he with e1 e2
      subst e1; subst e2
      rw [List.dropWhile_cons, if_neg (by simp [ha])]
  show (pyStrip (pyStrip l)) = pyStrip l
  unfold pyStrip
  conv_lhs => rw [show ((l.dropWhile pyIsSpace).rdropWhile
    pyIsSpace).dropWhile pyIsSpace = (l.dropWhile pyIsSpace).rdropWhile
      pyIsSpace from h1]
  exact List.rdropWhile_idempotent pyIsSpace _

/-! ### `_convert_description` on plain text -/

theorem star_prefix_false (s : List Char) (h : '*' ∉ s) :
    "/**".data.isPrefixOf s = false := by
  cases s with
  | nil => rfl
  | cons a s1 =>
    cases s1 with
    | nil => simp [List.isPrefixOf]
    | cons b s2 =>
      have hb : ('*' : Char) ≠ b := fun he => h (by simp [← he])
      show (("/**".data : List Char).isPrefixOf (a :: b :: s2)) = false
      rw [show ("/**".data : List Char) = '/' :: '*' :: '*' :: [] from rfl]
      simp [List.isPrefixOf, hb]

/-- On text containing none of `{`, `<`, `&`, `*` and no run of three
newlines, `_convert_description` only strips: every rewriting pass of
the pipeline is the identity. -/
theorem convert_description_plain (s : List Char)
    (h1 : '\x7b' ∉ s) (h2 : '<' ∉ s) (h3 : '&' ∉ s) (h4 : '*' ∉ s)
    (h5 : hasTripleNL s = false) :
    convert_description s = pyStrip s := by
  unfold convert_description pre_collapse_stages star_stage
  rw [if_neg (by rw [star_prefix_false s h4]; exact Bool.false_ne_true)]
  rw [runSub_id_of_gate preCodeTry '<' preCodeTry_gate (by decide) s h2,
    runSub_id_of_gate prePlainTry '<' prePlainTry_gate (by decide) s h2]
  unfold inline_tags_to_md
  rw [runSub_id_of_gate inlineTagTry '\x7b' inlineTagTry_gate (by decide) s h1]
  rw [html_to_md_eq_self s h2 h3]
  unfold collapse_blank_runs at *
  rw [runSub_eq_self collapseTry s
    (fun t ht => collapseTry_none t (hasTripleNL_of_suffix s t ht h5))]

/-- C2 counterexample: the inline-markup conversion is not idempotent.
A literal construct wrapping an inline-code construct unwraps to the
text of an inline-code construct, which a second run then converts to a
code span: `{@literal {@code x}}` ↦ `{@code x}` ↦ `` `x` ``. -/
theorem c2_counterexample :
    convert_description "\x7b@literal \x7b@code x\x7d\x7d".data
      = "\x7b@code x\x7d".data ∧
    convert_description (convert_description
      "\x7b@literal \x7b@code x\x7d\x7d".data) = "`x`".data ∧
    convert_description (convert_description
        "\x7b@literal \x7b@code x\x7d\x7d".data)
      ≠ convert_description "\x7b@literal \x7b@code x\x7d\x7d".data := by
  refine ⟨by decide, by decide, by decide⟩

/-- C2 amended: the conversion is idempotent on inputs in which no
rewriting stage can fire — text without inline-tag braces, HTML angle
brackets, entity ampersands, comment stars, and without a run of three
newlines.  (On general inputs idempotence fails; see the
counterexample.) -/
theorem c2_idempotent_on_plain (s : List Char)
    (h1 : '\x7b' ∉ s) (h2 : '<' ∉ s) (h3 : '&' ∉ s) (h4 : '*' ∉ s)
    (h5 : hasTripleNL s = false) :
    convert_description (convert_description s) = convert_description s := by
  rw [convert_description_plain s h1 h2 h3 h4 h5]
  rw [convert_description_plain (pyStrip s)
    (fun hm => h1 (pyStrip_subset s _ hm))
    (fun hm => h2 (pyStrip_subset s _ hm))
    (fun hm => h3 (pyStrip_subset s _ hm))
    (fun hm => h4 (pyStrip_subset s _ hm))
    (pyStrip_hasTripleNL s h5)]
  exact pyStrip_idem s

/-- C2 witness: the amended idempotence applied to a concrete plain
description. -/
theorem c2_idempotent_on_plain_witness :
    ('\x7b' ∉ "Adds two numbers.\n\nUse with care.".data ∧
     hasTripleNL "Adds two numbers.\n\nUse with care.".data = false) ∧
    convert_description (convert_description
        "Adds two numbers.\n\nUse with care.".data)
      = convert_description "Adds two numbers.\n\nUse with care.".data :=
  ⟨⟨by decide, by decide⟩,
   c2_idempotent_on_plain "Adds two numbers.\n\nUse with care.".data
     (by decide) (by decide) (by decide) (by decide) (by decide)⟩

/-! ### Concatenation lemmas for triple-newline freedom (used for C3) -/

theorem suffRunNL_cons_le (c : Char) (t : List Char) :
    suffRunNL t ≤ suffRunNL (c :: t) := by
  show suffRunNL t ≤
    (if suffRunNL t = t.length ∧ c = '\n' then suffRunNL t + 1 else suffRunNL t)
  split <;> omega

theorem suffRunNL_pos_last :
    ∀ (l : List Char), 0 < suffRunNL l → l.getLast? = some '\n' := by
  intro l
  induction l with
  | nil => intro h; simp [suffRunNL] at h
  | cons c t ih =>
    intro h
    unfold suffRunNL at h
    split at h
    · rename_i hif
      cases t with
      | nil => simp [hif.2]
      | cons d t' =>
        rw [List.getLast?_cons_cons]
        exact ih (by rw [hif.1]; simp)
    · cases t with
      | nil => simp [suffRunNL] at h
      | cons d t' =>
        rw [List.getLast?_cons_cons]
        exact ih h

theorem prefRunNL_cons_pos (t : List Char) : prefRunNL ('\n' :: t) = prefRunNL t + 1 := by
  unfold prefRunNL
  rw [List.takeWhile_cons, if_pos (by simp)]
  simp

theorem prefRunNL_cons_neg (c : Char) (t : List Char) (h : c ≠ '\n') :
    prefRunNL (c :: t) = 0 := by
  unfold prefRunNL
  rw [List.takeWhile_cons, if_neg (by simpa using h)]
  rfl

/-- Appending two triple-free texts is triple-free provided the newline
run across the seam is at most two. -/
theorem hasTripleNL_append :
    ∀ (x y : List Char), hasTripleNL x = false → hasTripleNL y = false →
      suffRunNL x + prefRunNL y ≤ 2 → hasTripleNL (x ++ y) = false := by
  intro x
  induction x with
  | nil => intro y _ hy _; exact hy
  | cons c x' ih =>
    intro y hx hy hs
    rw [hasTripleNL_cons, Bool.or_eq_false_iff] at hx
    have hihs : suffRunNL x' + prefRunNL y ≤ 2 :=
      le_trans (by have := suffRunNL_cons_le c x'; omega) hs
    rw [List.cons_append, hasTripleNL_cons, Bool.or_eq_false_iff]
    refine ⟨?_, ih y hx.2 hy hihs⟩
    rw [Bool.and_eq_false_iff]
    by_cases hc : c = '\n'
    · right
      rw [beq_eq_false_iff_ne]
      subst hc
      match x' with
      | [] =>
        -- seam: x = ["\n"], window looks at y.take 2
        intro he
        have hpre : 2 ≤ prefRunNL y := by
          cases y with
          | nil => simp at he
          | cons a y' =>
            cases y' with
            | nil => simp at he
            | cons b y'' =>
              simp only [List.take, List.cons.injEq] at he
              obtain ⟨ha, hb, -⟩ := he
              subst ha; subst hb
              rw [prefRunNL_cons_pos, prefRunNL_cons_pos]
              omega
        have hsuf : suffRunNL ['\n'] = 1 := by decide
        omega
      | [a] =>
        -- seam: window is [\n, a, y₀]
        intro he
        simp only [List.cons_append, List.nil_append, List.take,
          List.cons.injEq] at he
        obtain ⟨ha, hy0⟩ := he
        subst ha
        have hsuf : suffRunNL ['\n', '\n'] = 2 := by decide
        have hpre : 1 ≤ prefRunNL y := by
          cases y with
          | nil => simp at hy0
          | cons b y' =>
            simp only [List.take, List.cons.injEq] at hy0
            obtain ⟨hb, -⟩ := hy0
            subst hb
            rw [prefRunNL_cons_pos]
            omega
        omega
      | a :: b :: x'' =>
        -- window lies inside x
        intro he
        rw [List.cons_append, List.cons_append] at he
        simp only [List.take, List.cons.injEq] at he
        obtain ⟨ha, hb, -⟩ := he
        rcases Bool.and_eq_false_iff.mp hx.1 with hw | hw
        · simp at hw
        · rw [beq_eq_false_iff_ne] at hw
          exact hw (by simp [ha, hb])
    · left
      simpa using hc

/-! ### C3: the `<pre>{@code …}</pre>` rewrite -/

theorem isPrefixOf_append_self :
    ∀ (l t : List Char), l.isPrefixOf (l ++ t) = true := by
  intro l t
  induction l with
  | nil => cases t <;> rfl
  | cons c l' ih => simp [List.isPrefixOf, ih]

theorem splitOnFirst_cons (pat : List Char) (c : Char) (rest : List Char) :
    splitOnFirst pat (c :: rest)
      = if pat.isPrefixOf (c :: rest) = true then
          some ([], (c :: rest).drop pat.length)
        else (splitOnFirst pat rest).map (fun p => (c :: p.1, p.2)) := rfl

theorem preCodeTry_cons_lt (t : List Char) :
    preCodeTry ('<' :: t)
      = if "pre>\x7b@code".data.isPrefixOf t = true then
          match splitOnFirst "\x7d</pre>".data (t.drop 10) with
          | some (between, after) =>
            some ("\n```java\n".data ++ pyStrip between ++ "\n```\n".data, after)
          | none => none
        else none := rfl

theorem splitOnFirst_of_head_notin (p0 : Char) (pr pre post : List Char)
    (h : p0 ∉ pre) :
    splitOnFirst (p0 :: pr) (pre ++ (p0 :: pr) ++ post) = some (pre, post) := by
  induction pre with
  | nil =>
    show splitOnFirst (p0 :: pr) ((p0 :: pr) ++ post) = some ([], post)
    rw [List.cons_append, splitOnFirst_cons]
    rw [if_pos (by rw [← List.cons_append]; exact isPrefixOf_append_self _ _)]
    rw [← List.cons_append, List.drop_left]
  | cons c pre' ih =>
    have hc : (p0 == c) = false := by
      rw [beq_eq_false_iff_ne]
      exact fun he => h (by simp [he])
    show splitOnFirst (p0 :: pr) (c :: (pre' ++ (p0 :: pr) ++ post))
      = some (c :: pre', post)
    rw [splitOnFirst_cons]
    rw [if_neg (by simp [List.isPrefixOf, hc])]
    rw [ih (fun hm => h (List.mem_cons_of_mem c hm))]
    rfl

theorem subScan_nil (tm : List Char → Option (List Char × List Char))
    (fuel : Nat) : subScan tm fuel [] = [] := by
  cases fuel <;> rfl

theorem runSub_head_match (tm : List Char → Option (List Char × List Char))
    (c : Char) (r rep : List Char) (h : tm (c :: r) = some (rep, [])) :
    runSub tm (c :: r) = rep := by
  show subScan tm ((c :: r).length + 1) (c :: r) = rep
  simp only [subScan, h]
  simp [subScan_nil]

theorem pyStrip_cons_space (l : List Char) : pyStrip (' ' :: l) = pyStrip l := by
  unfold pyStrip
  rw [List.dropWhile_cons, if_pos (by decide)]

/-- The matcher step for a whole `<pre>{@code …}</pre>` block whose body
contains no `}`. -/
theorem preCodeTry_block (body post : List Char) (hbody : '\x7d' ∉ body) :
    preCodeTry ("<pre>\x7b@code ".data ++ body ++ "\x7d</pre>".data ++ post)
      = some ("\n```java\n".data ++ pyStrip body ++ "\n```\n".data, post) := by
  show preCodeTry ('<' :: ("pre>\x7b@code".data ++ ((' ' :: body)
      ++ ('\x7d' :: "</pre>".data) ++ post))) = _
  rw [preCodeTry_cons_lt]
  rw [if_pos (isPrefixOf_append_self "pre>\x7b@code".data _)]
  rw [show (10 : Nat) = ("pre>\x7b@code".data : List Char).length from rfl,
    List.drop_left]
  rw [splitOnFirst_of_head_notin '\x7d' "</pre>".data (' ' :: body) post
    (by intro hm
        rcases List.mem_cons.mp hm with he | hm2
        · exact absurd he.symm (by decide)
        · exact hbody hm2)]
  show some ("\n```java\n".data ++ pyStrip (' ' :: body) ++ "\n```\n".data,
    post) = _
  rw [pyStrip_cons_space]

theorem suffRunNL_pyStrip (l : List Char) : suffRunNL (pyStrip l) = 0 := by
  by_contra h
  have hpos : 0 < suffRunNL (pyStrip l) := Nat.pos_of_ne_zero h
  have hlast := suffRunNL_pos_last _ hpos
  have hne : pyStrip l ≠ [] := by
    intro he
    rw [he] at hlast
    simp at hlast
  have h2 := List.rdropWhile_last_not pyIsSpace (l.dropWhile pyIsSpace) hne
  apply h2
  have h3 := List.getLast?_eq_getLast (pyStrip l) hne
  rw [hlast] at h3
  have h4 : (pyStrip l).getLast hne = '\n' := (Option.some_inj.mp h3).symm
  rw [show ((l.dropWhile pyIsSpace).rdropWhile pyIsSpace).getLast hne
    = (pyStrip l).getLast hne from rfl, h4]
  decide

theorem prefRunNL_pyStrip_append (l B0 : List Char) (hB : prefRunNL B0 ≤ 1) :
    prefRunNL (pyStrip l ++ B0) ≤ 1 := by
  cases hx : pyStrip l with
  | nil => simpa using hB
  | cons a t =>
    obtain ⟨a2, t2, he, ha⟩ := pyStrip_ne_nil_head l (by rw [hx]; simp)
    rw [hx] at he
    injection he with e1 e2
    rw [← e1] at ha
    have hne : a ≠ '\n' := by
      intro hw
      rw [hw] at ha
      simp [pyIsSpace] at ha
    rw [List.cons_append, prefRunNL_cons_neg a _ hne]
    omega

theorem hasTripleNL_fence (body : List Char)
    (h5 : hasTripleNL body = false) :
    hasTripleNL ("\n```java\n".data ++ pyStrip body ++ "\n```\n".data)
      = false := by
  rw [List.append_assoc]
  apply hasTripleNL_append
  · decide
  · apply hasTripleNL_append
    · exact pyStrip_hasTripleNL body h5
    · decide
    · rw [suffRunNL_pyStrip]
      decide
  · have h1 : suffRunNL ("\n```java\n".data : List Char) = 1 := by decide
    have h2 := prefRunNL_pyStrip_append body "\n```\n".data (by decide)
    omega

theorem pyStrip_fence (body : List Char) :
    pyStrip ("\n```java\n".data ++ pyStrip body ++ "\n```\n".data)
      = "```java\n".data ++ pyStrip body ++ "\n```".data := by
  show List.rdropWhile pyIsSpace (List.dropWhile pyIsSpace
    ('\n' :: '`' :: ("``java\n".data ++ pyStrip body ++ "\n```\n".data)))
    = _
  rw [List.dropWhile_cons, if_pos (by decide),
    List.dropWhile_cons, if_neg (by decide)]
  rw [show ('`' :: ("``java\n".data ++ pyStrip body ++ "\n```\n".data)
      : List Char)
    = ('`' :: ("``java\n".data ++ pyStrip body ++ "\n```".data)) ++ ['\n'] by
      simp [List.append_assoc]]
  rw [List.rdropWhile_concat_pos pyIsSpace _ '\n' (by decide)]
  rw [show ('`' :: ("``java\n".data ++ pyStrip body ++ "\n```".data)
      : List Char)
    = ('`' :: ("``java\n".data ++ pyStrip body ++ "\n``".data)) ++ ['`'] by
      simp [List.append_assoc]]
  rw [List.rdropWhile_concat_neg pyIsSpace _ '`' (by decide)]
  simp [List.append_assoc]

/-- C3 counterexample: the inner content of a fenced block produced
from `<pre>{@code …}</pre>` is not byte-identical to the wrapped source
in general, because the later generic HTML-tag strip still runs inside
the fence: `List<String>` loses its `<String>`. -/
theorem c3_counterexample :
    convert_description
        "<pre>\x7b@code List<String> x;\x7d</pre>".data
      = "```java\nList x;\n```".data ∧
    convert_description "<pre>\x7b@code List<String> x;\x7d</pre>".data
      ≠ "```java\nList<String> x;\n```".data := by
  refine ⟨by decide, by decide⟩

/-- C3 amended: for a description that is a `<pre>{@code …}</pre>` block
whose wrapped content contains no `}` (so the block ends at its own
delimiter) and none of the characters the later pipeline stages rewrite
(`<`, `{`, `&`) nor a run of three newlines, the conversion produces a
`java`-tagged fenced block whose inner content is byte-identical to the
wrapped content after whitespace trimming; the `{@code` marker is
consumed by the pre-block pass, before generic inline-tag conversion
runs. -/
theorem c3_pre_code_block (body : List Char)
    (hbrace : '\x7d' ∉ body) (h1 : '\x7b' ∉ body) (h2 : '<' ∉ body)
    (h3 : '&' ∉ body) (h5 : hasTripleNL body = false) :
    convert_description
        ("<pre>\x7b@code ".data ++ body ++ "\x7d</pre>".data)
      = "```java\n".data ++ pyStrip body ++ "\n```".data := by
  have hstep : preCodeTry ("<pre>\x7b@code ".data ++ body
      ++ "\x7d</pre>".data) = some ("\n```java\n".data ++ pyStrip body
      ++ "\n```\n".data, []) := by
    have h0 := preCodeTry_block body [] hbrace
    rwa [List.append_nil] at h0
  have hrun : runSub preCodeTry ("<pre>\x7b@code ".data ++ body
      ++ "\x7d</pre>".data) = "\n```java\n".data ++ pyStrip body
      ++ "\n```\n".data := by
    rw [show ("<pre>\x7b@code ".data ++ body ++ "\x7d</pre>".data
        : List Char)
      = '<' :: ("pre>\x7b@code ".data ++ body ++ "\x7d</pre>".data)
        from rfl]
    exact runSub_head_match preCodeTry '<' _ _ hstep
  have hm : ∀ c : Char,
      c ∈ ("\n```java\n".data ++ pyStrip body ++ "\n```\n".data
        : List Char) →
      c ∈ ("\n```java\n".data : List Char) ∨ c ∈ body ∨
        c ∈ ("\n```\n".data : List Char) := by
    intro c hc
    rcases List.mem_append.mp hc with hc1 | hc2
    · rcases List.mem_append.mp hc1 with hca | hcp
      · exact Or.inl hca
      · exact Or.inr (Or.inl (pyStrip_subset body c hcp))
    · exact Or.inr (Or.inr hc2)
  have hltrep : '<' ∉ ("\n```java\n".data ++ pyStrip body
      ++ "\n```\n".data : List Char) := by
    intro hc
    rcases hm '<' hc with hA | hB | hC
    · exact absurd hA (by decide)
    · exact h2 hB
    · exact absurd hC (by decide)
  have hbrrep : '\x7b' ∉ ("\n```java\n".data ++ pyStrip body
      ++ "\n```\n".data : List Char) := by
    intro hc
    rcases hm '\x7b' hc with hA | hB | hC
    · exact absurd hA (by decide)
    · exact h1 hB
    · exact absurd hC (by decide)
  have hamprep : '&' ∉ ("\n```java\n".data ++ pyStrip body
      ++ "\n```\n".data : List Char) := by
    intro hc
    rcases hm '&' hc with hA | hB | hC
    · exact absurd hA (by decide)
    · exact h3 hB
    · exact absurd hC (by decide)
  unfold convert_description pre_collapse_stages star_stage
  rw [if_neg (by
    rw [show ("<pre>\x7b@code ".data ++ body ++ "\x7d</pre>".data
        : List Char)
      = '<' :: ("pre>\x7b@code ".data ++ body ++ "\x7d</pre>".data)
        from rfl]
    rw [show ("/**".data : List Char) = '/' :: "**".data from rfl]
    simp [List.isPrefixOf])]
  rw [hrun]
  rw [runSub_id_of_gate prePlainTry '<' prePlainTry_gate (by decide) _
    hltrep]
  unfold inline_tags_to_md
  rw [runSub_id_of_gate inlineTagTry '\x7b' inlineTagTry_gate (by decide) _
    hbrrep]
  rw [html_to_md_eq_self _ hltrep hamprep]
  unfold collapse_blank_runs
  rw [runSub_eq_self collapseTry _
    (fun t ht => collapseTry_none t
      (hasTripleNL_of_suffix _ t ht (hasTripleNL_fence body h5)))]
  exact pyStrip_fence body

/-- C3 witness: the amended theorem at a concrete two-line code body. -/
theorem c3_pre_code_block_witness :
    ('\x7d' ∉ "int x = 1;\nreturn x;".data ∧
     hasTripleNL "int x = 1;\nreturn x;".data = false) ∧
    convert_description ("<pre>\x7b@code ".data
        ++ "int x = 1;\nreturn x;".data ++ "\x7d</pre>".data)
      = "```java\n".data ++ pyStrip "int x = 1;\nreturn x;".data
        ++ "\n```".data :=
  ⟨⟨by decide, by decide⟩,
   c3_pre_code_block "int x = 1;\nreturn x;".data
     (by decide) (by decide) (by decide) (by decide) (by decide)⟩

/-! ### C6: the scanner collapse agrees with the run-based description -/

theorem drop_takeWhile_length (p : Char → Bool) :
    ∀ t : List Char, t.drop (t.takeWhile p).length = t.dropWhile p := by
  intro t
  induction t with
  | nil => rfl
  | cons c r ih =>
    by_cases hc : p c = true
    · rw [List.takeWhile_cons, if_pos hc, List.length_cons,
        List.drop_succ_cons, ih, List.dropWhile_cons, if_pos hc]
    · rw [List.takeWhile_cons, if_neg hc, List.dropWhile_cons, if_neg hc]
      rfl

theorem charRuns_nil : charRuns [] = [] := by
  rw [charRuns]

theorem collapse_runs_spec_nil : collapse_runs_spec [] = [] := by
  unfold collapse_runs_spec
  rw [charRuns_nil]
  rfl

theorem charRuns_cons (c : Char) (t : List Char) :
    charRuns (c :: t)
      = (c :: t.takeWhile (· == c)) :: charRuns (t.dropWhile (· == c)) := by
  rw [charRuns]

/-- Absorption of a leading run into the run decomposition: as long as a
leading `c`-run is not itself a collapsible newline run, the
specification-side collapse of `t` is that run followed by the collapse
of the remainder. -/
theorem collapse_runs_spec_absorb (c : Char) (t : List Char)
    (h : ¬(c = '\n' ∧ 2 ≤ (t.takeWhile (· == c)).length)) :
    collapse_runs_spec t
      = t.takeWhile (· == c)
        ++ ((charRuns (t.dropWhile (· == c))).map mapRun).flatten := by
  cases t with
  | nil => simp [collapse_runs_spec_nil, charRuns_nil]
  | cons d t' =>
    by_cases hd : (d == c) = true
    · have hdc : d = c := by simpa using hd
      subst hdc
      rw [List.takeWhile_cons, if_pos (by simp), List.dropWhile_cons,
        if_pos (by simp)]
      have hmr : mapRun (d :: t'.takeWhile (· == d))
          = d :: t'.takeWhile (· == d) := by
        unfold mapRun
        rw [if_neg]
        rintro ⟨hnl, hlen⟩
        simp only [List.headD_cons] at hnl
        apply h
        refine ⟨hnl, ?_⟩
        rw [List.takeWhile_cons, if_pos (by simp)]
        simp only [List.length_cons] at hlen ⊢
        omega
      unfold collapse_runs_spec
      rw [charRuns_cons, List.map_cons, List.flatten_cons, hmr]
      try simp
    · rw [List.takeWhile_cons, if_neg hd, List.dropWhile_cons, if_neg hd]
      simp [collapse_runs_spec]

theorem subScan_collapse_eq_spec :
    ∀ (n : Nat) (s : List Char), s.length ≤ n →
      ∀ f, s.length < f → subScan collapseTry f s = collapse_runs_spec s := by
  intro n
  induction n with
  | zero =>
    intro s hs f hf
    rw [List.length_eq_zero.mp (Nat.le_zero.mp hs)]
    rw [subScan_nil, collapse_runs_spec_nil]
  | succ n ih =>
    intro s hs f hf
    cases s with
    | nil => rw [subScan_nil, collapse_runs_spec_nil]
    | cons c t =>
      cases f with
      | zero => simp at hf
      | succ f' =>
        simp only [List.length_cons] at hs hf
        by_cases hc : c = '\n'
        · subst hc
          by_cases hk : 2 ≤ (t.takeWhile (· == '\n')).length
          · -- the regex fires and eats the whole run
            have htry : collapseTry ('\n' :: t)
                = some (['\n', '\n'],
                    t.drop (t.takeWhile (· == '\n')).length) := by
              rw [show collapseTry ('\n' :: t)
                = (if 2 ≤ (t.takeWhile (· == '\n')).length then
                    some (['\n', '\n'],
                      t.drop (t.takeWhile (· == '\n')).length)
                  else none) from rfl]
              rw [if_pos hk]
            rw [show subScan collapseTry (f' + 1) ('\n' :: t)
              = ['\n', '\n'] ++ subScan collapseTry f'
                  (t.drop (t.takeWhile (· == '\n')).length) from by
                simp only [subScan, htry]]
            rw [drop_takeWhile_length]
            have hlen : (t.dropWhile (· == '\n')).length ≤ t.length :=
              (List.dropWhile_suffix _).length_le
            rw [ih (t.dropWhile (· == '\n')) (by omega) f' (by omega)]
            -- specification side: the leading newline run has length ≥ 3
            unfold collapse_runs_spec
            rw [charRuns_cons, List.map_cons, List.flatten_cons]
            rw [show mapRun ('\n' :: t.takeWhile (· == '\n'))
                = ['\n', '\n'] from by
              unfold mapRun
              rw [if_pos ⟨by simp, by simp only [List.length_cons]; omega⟩]]
          · -- short run: the scanner emits one character
            have htry : collapseTry ('\n' :: t) = none := by
              rw [show collapseTry ('\n' :: t)
                = (if 2 ≤ (t.takeWhile (· == '\n')).length then
                    some (['\n', '\n'],
                      t.drop (t.takeWhile (· == '\n')).length)
                  else none) from rfl]
              rw [if_neg hk]
            rw [show subScan collapseTry (f' + 1) ('\n' :: t)
              = '\n' :: subScan collapseTry f' t from by
                simp only [subScan, htry]]
            rw [ih t (by omega) f' (by omega)]
            rw [collapse_runs_spec_absorb '\n' t (by
              rintro ⟨-, hlen⟩
              exact hk hlen)]
            unfold collapse_runs_spec
            rw [charRuns_cons, List.map_cons, List.flatten_cons]
            rw [show mapRun ('\n' :: t.takeWhile (· == '\n'))
                = '\n' :: t.takeWhile (· == '\n') from by
              unfold mapRun
              rw [if_neg (by
                rintro ⟨-, hlen⟩
                simp only [List.length_cons] at hlen
                exact hk (by omega))]]
            simp
        · -- a non-newline head is copied through
          have htry : collapseTry (c :: t) = none :=
            collapseTry_gate (c :: t) (by simpa using hc)
          rw [show subScan collapseTry (f' + 1) (c :: t)
            = c :: subScan collapseTry f' t from by
              simp only [subScan, htry]]
          rw [ih t (by omega) f' (by omega)]
          rw [collapse_runs_spec_absorb c t (by rintro ⟨he, -⟩; exact hc he)]
          unfold collapse_runs_spec
          rw [charRuns_cons, List.map_cons, List.flatten_cons]
          rw [show mapRun (c :: t.takeWhile (· == c))
              = c :: t.takeWhile (· == c) from by
            unfold mapRun
            rw [if_neg (by
              rintro ⟨he, -⟩
              simp only [List.headD_cons] at he
              exact hc he)]]
          simp

theorem collapse_blank_runs_eq_spec (s : List Char) :
    collapse_blank_runs s = collapse_runs_spec s :=
  subScan_collapse_eq_spec s.length s (le_refl _) (s.length + 1)
    (Nat.lt_succ_self _)

/-- C6: the final cleanup stage of `_convert_description` collapses
every maximal run of three or more newline characters to exactly two and
then strips leading and trailing whitespace: the conversion equals the
run-based collapse (`collapse_runs_spec`, which maps every maximal
newline run of length ≥ 3 to two newlines and keeps every other run)
followed by `str.strip()`, applied after all rewriting stages. -/
theorem c6_collapse_trim (raw : List Char) :
    convert_description raw
      = pyStrip (collapse_runs_spec (pre_collapse_stages raw)) := by
  unfold convert_description
  rw [collapse_blank_runs_eq_spec]

/-- C4: during member extraction, a member whose only modifier is
`private` and which has neither a (converted) description nor any tags
is excluded from the model, while a member with the `private` modifier
that does carry a description or tags is included (with its modifiers
intact).  The hypotheses state that the comment/declaration pair
is extractable at all: a nonempty signature line that is not a nested
type declaration, a usable member name, and a Javadoc block that
parses. -/
theorem c4_private_filter (kind jd after mdescRaw : List Char)
    (mtags : List Tag)
    (hjd : parse_javadoc_block jd = some (mdescRaw, mtags))
    (hsig : sig_line_of after ≠ [])
    (hkw : containsClassKw (sig_line_of after) = false)
    (hname : (parse_member_signature (sig_line_of after)).1 ≠ [] ∧
      (parse_member_signature (sig_line_of after)).1 ≠ "unknown".data) :
    (extract_modifiers ((sig_line_of after).takeWhile (· ≠ '(')) =
        ["private".data] →
      (if mdescRaw ≠ [] then convert_description mdescRaw else []) = [] →
      mtags = [] →
      processMember kind jd after = none) ∧
    ("private".data ∈
        extract_modifiers ((sig_line_of after).takeWhile (· ≠ '(')) →
      ((if mdescRaw ≠ [] then convert_description mdescRaw else []) ≠ [] ∨
        mtags ≠ []) →
      ∃ m, processMember kind jd after = some m ∧
        m.modifiers =
          extract_modifiers ((sig_line_of after).takeWhile (· ≠ '('))) := by
  have hpm : processMember kind jd after
      = processMemberDoc kind (sig_line_of after) mdescRaw mtags := by
    simp only [processMember]
    rw [if_neg hsig, if_neg (by simp [hkw]), if_neg (not_or.mpr hname), hjd]
  constructor
  · intro hmods hmdesc htags
    rw [hpm]
    simp only [processMemberDoc]
    rw [if_pos ⟨by rw [hmods]; exact List.mem_singleton.mpr rfl, hmdesc, htags⟩]
  · intro hpriv hdoc
    rw [hpm]
    simp only [processMemberDoc]
    rw [if_neg ?_]
    · exact ⟨_, rfl, rfl⟩
    · rintro ⟨-, hm, ht⟩
      rcases hdoc with hd | ht'
      · exact hd hm
      · exact ht' ht

/-- C4 witness: a concrete private field with a description is included,
with modifier list `["private"]`. -/
theorem c4_private_filter_witness :
    ∃ m, processMember "class".data "/** Helper. */".data
        "private int x = 1;".data = some m ∧
      m.modifiers = ["private".data] := by
  obtain ⟨m, hm, hmods⟩ :=
    (c4_private_filter "class".data "/** Helper. */".data
        "private int x = 1;".data "Helper.".data []
        (by decide) (by decide) (by decide) ⟨by decide, by decide⟩).2
      (by decide) (by decide)
  exact ⟨m, hm, by rw [hmods]; decide⟩

/-! ### C8: the `.pages` directory-ordering files -/

theorem lexLe_total : ∀ a b : List Char, lexLe a b = true ∨ lexLe b a = true := by
  intro a
  induction a with
  | nil => intro b; left; rfl
  | cons x as ih =>
    intro b
    cases b with
    | nil => right; rfl
    | cons y bs =>
      by_cases hxy : x = y
      · subst hxy
        rcases ih bs with h | h
        · left; simpa [lexLe] using h
        · right; simpa [lexLe] using h
      · rcases lt_or_gt_of_ne hxy with h | h
        · left; simp [lexLe, hxy, h]
        · right; simp [lexLe, Ne.symm hxy, h]

theorem lexLe_trans :
    ∀ a b c : List Char, lexLe a b = true → lexLe b c = true →
      lexLe a c = true := by
  intro a
  induction a with
  | nil => intro b c _ _; rfl
  | cons x as ih =>
    intro b c hab hbc
    cases b with
    | nil => simp [lexLe] at hab
    | cons y bs =>
      cases c with
      | nil => simp [lexLe] at hbc
      | cons z cs =>
        by_cases hxy : x = y <;> by_cases hyz : y = z
        · subst hxy; subst hyz
          simp only [lexLe, if_pos rfl] at hab hbc ⊢
          exact ih bs cs hab hbc
        · subst hxy
          simp only [lexLe, if_neg hyz] at hbc
          simp only [lexLe, if_neg hyz]
          exact hbc
        · subst hyz
          simp only [lexLe, if_neg hxy] at hab
          simp only [lexLe, if_neg hxy]
          exact hab
        · simp only [lexLe, if_neg hxy] at hab
          simp only [lexLe, if_neg hyz] at hbc
          have hlt : x < z :=
            lt_trans (of_decide_eq_true hab) (of_decide_eq_true hbc)
          simp only [lexLe, if_neg (ne_of_lt hlt)]
          exact decide_eq_true hlt

theorem strLe_total (a b : String) : strLe a b = true ∨ strLe b a = true :=
  lexLe_total a.data b.data

theorem strLe_trans (a b c : String) (h1 : strLe a b = true)
    (h2 : strLe b c = true) : strLe a c = true :=
  lexLe_trans a.data b.data c.data h1 h2

theorem insertBy_perm {α : Type} (le : α → α → Bool) (x : α) :
    ∀ l : List α, (insertBy le x l).Perm (x :: l) := by
  intro l
  induction l with
  | nil => exact List.Perm.refl _
  | cons y ys ih =>
    unfold insertBy
    by_cases h : le x y = true
    · rw [if_pos h]
    · rw [if_neg h]
      exact List.Perm.trans (List.Perm.cons y ih) (List.Perm.swap x y ys)

theorem sortBy_perm {α : Type} (le : α → α → Bool) :
    ∀ l : List α, (sortBy le l).Perm l := by
  intro l
  induction l with
  | nil => exact List.Perm.refl _
  | cons x xs ih =>
    unfold sortBy
    exact List.Perm.trans (insertBy_perm le x (sortBy le xs))
      (List.Perm.cons x ih)

theorem insertBy_pairwise {α : Type} (le : α → α → Bool)
    (htot : ∀ a b, le a b = true ∨ le b a = true)
    (htrans : ∀ a b c, le a b = true → le b c = true → le a c = true)
    (x : α) :
    ∀ l : List α, l.Pairwise (fun a b => le a b = true) →
      (insertBy le x l).Pairwise (fun a b => le a b = true) := by
  intro l
  induction l with
  | nil =>
    intro _
    unfold insertBy
    exact List.pairwise_singleton _ _
  | cons y ys ih =>
    intro hl
    rw [List.pairwise_cons] at hl
    unfold insertBy
    by_cases h : le x y = true
    · rw [if_pos h]
      rw [List.pairwise_cons]
      refine ⟨?_, List.pairwise_cons.mpr hl⟩
      intro z hz
      rcases List.mem_cons.mp hz with hz | hz
      · rw [hz]; exact h
      · exact htrans x y z h (hl.1 z hz)
    · rw [if_neg h]
      rw [List.pairwise_cons]
      have hyx : le y x = true := (htot x y).resolve_left h
      refine ⟨?_, ih hl.2⟩
      intro z hz
      rcases List.mem_cons.mp
          ((List.Perm.mem_iff (insertBy_perm le x ys)).mp hz) with hz1 | hz1
      · rw [hz1]; exact hyx
      · exact hl.1 z hz1

theorem sortBy_strLe_pairwise :
    ∀ l : List String, (sortBy strLe l).Pairwise (fun a b => strLe a b = true) := by
  intro l
  induction l with
  | nil => exact List.Pairwise.nil
  | cons x xs ih =>
    unfold sortBy
    exact insertBy_pairwise strLe strLe_total strLe_trans x (sortBy strLe xs) ih

theorem filter_filterMap_key_nil (g : List String → Option (List String × List Char))
    (hkey : ∀ x p, g x = some p → p.1 = x) (d : List String) :
    ∀ L : List (List String), d ∉ L →
      (L.filterMap g).filter (fun e => e.1 == d) = [] := by
  intro L
  induction L with
  | nil => intro _; rfl
  | cons x L' ih =>
    intro hd
    rw [List.filterMap_cons]
    cases hg : g x with
    | none => exact ih (fun hm => hd (List.mem_cons_of_mem x hm))
    | some p =>
      rw [List.filter_cons]
      rw [if_neg (by
        intro he
        rw [beq_iff_eq] at he
        rw [hkey x p hg] at he
        exact hd (he ▸ List.mem_cons_self x L'))]
      exact ih (fun hm => hd (List.mem_cons_of_mem x hm))

theorem filter_filterMap_key (g : List String → Option (List String × List Char))
    (hkey : ∀ x p, g x = some p → p.1 = x) (d : List String) :
    ∀ L : List (List String), L.Nodup → d ∈ L →
      (L.filterMap g).filter (fun e => e.1 == d) = (g d).toList := by
  intro g0
  induction g0 with
  | nil => intro _ hd; exact absurd hd (by simp)
  | cons x L' ih =>
    intro hnd hd
    rw [List.nodup_cons] at hnd
    rw [List.filterMap_cons]
    by_cases hx : x = d
    · subst hx
      cases hg : g x with
      | none =>
        rw [Option.toList_none]
        exact filter_filterMap_key_nil g hkey x L' hnd.1
      | some p =>
        rw [List.filter_cons]
        rw [if_pos (by rw [beq_iff_eq, hkey x p hg])]
        rw [Option.toList_some]
        rw [filter_filterMap_key_nil g hkey x L' hnd.1]
    · cases hg : g x with
      | none =>
        exact ih hnd.2 (by
          rcases List.mem_cons.mp hd with he | hm
          · exact absurd he.symm hx
          · exact hm)
      | some p =>
        rw [List.filter_cons]
        rw [if_neg (by
          intro he
          rw [beq_iff_eq] at he
          rw [hkey x p hg] at he
          exact hx he)]
        exact ih hnd.2 (by
          rcases List.mem_cons.mp hd with he | hm
          · exact absurd he.symm hx
          · exact hm)

/-- C8 counterexample: after a run whose output root contains the
top-level `index.md`, a package directory `com` with two documents, the
model of `_write_dir_pages` produces a `.pages` file only for `com` —
the top-level output directory gets none, because `rglob("*")` never
yields the directory it is called on.  This refutes the claim's
"including the top-level output directory". -/
theorem c8_counterexample :
    dirsOf [["index.md"], ["com", "index.md"], ["com", "acme.md"]]
      = [["com"]] ∧
    write_dir_pages [["index.md"], ["com", "index.md"], ["com", "acme.md"]]
      = [(["com"], "nav:\n  - index.md\n  - acme.md\n".data)] ∧
    (write_dir_pages [["index.md"], ["com", "index.md"],
        ["com", "acme.md"]]).filter (fun e => e.1 == ([] : List String))
      = [] := by
  refine ⟨by decide, by decide, by decide⟩

/-- C8 amended: every output directory strictly below the top-level one
that has at least one listable child receives exactly one
directory-ordering metadata file; it lists only that directory's direct
children — `index.md` first, the other `.md` documents next in
alphabetical order, then the subdirectories in alphabetical order.  The
top-level output directory receives no such file. -/
theorem c8_dir_pages (fs : List (List String)) (d : List String)
    (hd : d ∈ dirsOf fs)
    (hne : ¬(childrenMdSorted fs d = [] ∧ childrenDirsSorted fs d = [])) :
    (write_dir_pages fs).filter (fun e => e.1 == d)
      = [(d, pagesContent (childrenMdSorted fs d) (childrenDirsSorted fs d))] ∧
    (childrenMdSorted fs d).Pairwise (fun a b => strLe a b = true) ∧
    (childrenDirsSorted fs d).Pairwise (fun a b => strLe a b = true) ∧
    pagesContent (childrenMdSorted fs d) (childrenDirsSorted fs d)
      = "nav:\n".data
        ++ joinNL ((orderedMd (childrenMdSorted fs d)
            ++ childrenDirsSorted fs d).map fun n => "  - ".data ++ n.data)
        ++ ['\n'] := by
  refine ⟨?_, sortBy_strLe_pairwise _, sortBy_strLe_pairwise _, rfl⟩
  unfold write_dir_pages
  rw [filter_filterMap_key _ ?_ d _ ?_ ?_]
  · rw [if_neg hne]
    rfl
  · intro x p hg
    by_cases hguard : childrenMdSorted fs x = [] ∧ childrenDirsSorted fs x = []
    · rw [if_pos hguard] at hg
      exact Option.noConfusion hg
    · rw [if_neg hguard] at hg
      rw [← Option.some_inj.mp hg]
  · exact (List.Perm.nodup_iff (sortBy_perm pathLe (dirsOf fs))).mpr
      (List.nodup_dedup _)
  · exact (List.Perm.mem_iff (sortBy_perm pathLe (dirsOf fs))).mpr hd

/-- C8 witness: the amended theorem at the concrete run of the
counterexample, for the one directory below the root. -/
theorem c8_dir_pages_witness :
    (["com"] ∈ dirsOf [["index.md"], ["com", "index.md"], ["com", "acme.md"]]) ∧
    (write_dir_pages [["index.md"], ["com", "index.md"],
        ["com", "acme.md"]]).filter (fun e => e.1 == (["com"] : List String))
      = [(["com"],
          pagesContent (childrenMdSorted [["index.md"], ["com", "index.md"],
            ["com", "acme.md"]] ["com"])
            (childrenDirsSorted [["index.md"], ["com", "index.md"],
              ["com", "acme.md"]] ["com"]))] :=
  ⟨by decide,
   (c8_dir_pages [["index.md"], ["com", "index.md"], ["com", "acme.md"]]
     ["com"] (by decide) (by decide)).1⟩

end JD
